import Mathlib

/-!
Verification of the `vsg::Allocator` memory-allocator code
(`src/vsg/core/Allocator.cpp`, given here as `src/unnamed/part_002`,
lines 256-747).

The embedding models machine addresses and sizes as `Nat` (a `size_t`
with values far below 2^64; no arithmetic here can overflow in the C++),
raw pointers as `Nat` addresses with nullness expressed through `Option`,
`std::vector<std::unique_ptr<MemoryBlocks>>` as `List (Option MemoryBlocks)`,
and the address-ordered `std::map<void*, std::shared_ptr<MemoryBlock>>`
as a key-sorted association list.  The system heap (`operator new` for
whole blocks) is modelled as a bump address source `nextAddress`: every
newly created block receives a fresh address range disjoint from all
previously created blocks, mirroring the guarantee the real heap gives.
-/

set_option maxRecDepth 8000

namespace VsgAlloc

/-- Round `o` up to the next multiple of `a` (`a = 0` keeps `o`),
the effect of aligned allocation/padding in the slot tracker. -/
def alignUp (o a : Nat) : Nat :=
  if a = 0 then o else ((o + a - 1) / a) * a

/-! ## Slot tracker (`vsg::MemorySlots`)

Modelled from the spec: the implementation file `MemorySlots.cpp` of this
repository is not under `src/` (only its callers in `Allocator.cpp` are),
so the slot tracker is modelled from spec section 4.1:
`reserve(size, alignment)` does a first-fit search over an offset-ordered
free-range map, splits the chosen free range, and marks
`[offset, offset+size)` reserved; `release(offset, size)` returns `false`
if the range was not actually reserved, otherwise frees it and merges it
with adjacent free ranges; `empty()` is true iff zero bytes are reserved;
queries report total capacity, total reserved and total available bytes. -/

/-- Modelled from the spec: state of the slot tracker over one block.
`available` is the offset-ordered free-range map (offset, length);
`reserved` is the set of currently reserved ranges (offset, size),
the bookkeeping that lets `release` detect a never-reserved range. -/
structure MemorySlots where
  capacity : Nat
  memoryTracking : Nat
  available : List (Nat × Nat)
  reserved : List (Nat × Nat)
  deriving Repr, DecidableEq

/-- Modelled from the spec: a fresh tracker over `blockSize` bytes, all free. -/
def MemorySlots.mkFresh (blockSize memoryTracking : Nat) : MemorySlots :=
  { capacity := blockSize, memoryTracking := memoryTracking,
    available := [(0, blockSize)], reserved := [] }

/-- Modelled from the spec: first-fit search with alignment over the
offset-ordered free-range list.  On success returns the chosen aligned
offset and the free list with the chosen range split around the
reservation (zero-length remainders are dropped). -/
def findFit (size align : Nat) : List (Nat × Nat) → Option (Nat × List (Nat × Nat))
  | [] => none
  | (o, len) :: rest =>
    if alignUp o align + size ≤ o + len then
      some (alignUp o align,
        (if 0 < alignUp o align - o then [(o, alignUp o align - o)] else []) ++
        (if 0 < o + len - (alignUp o align + size) then
           [(alignUp o align + size, o + len - (alignUp o align + size))] else []) ++
        rest)
    else
      match findFit size align rest with
      | some (off, rest') => some (off, (o, len) :: rest')
      | none => none

/-- Modelled from the spec: insert the freed range `[o, o+s)` into the
offset-ordered free list, merging with an immediately preceding and/or
following free range when contiguous. -/
def insertRun (o s : Nat) : List (Nat × Nat) → List (Nat × Nat)
  | [] => [(o, s)]
  | (o1, s1) :: rest =>
    if o + s < o1 then (o, s) :: (o1, s1) :: rest
    else if o + s = o1 then (o, s + s1) :: rest
    else if o1 + s1 = o then insertRun o1 (s1 + s) rest
    else (o1, s1) :: insertRun o s rest

/-- Modelled from the spec: `MemorySlots::reserve(size, alignment)`,
returning `(offset?, new state)`; `none` is the soft miss. -/
def MemorySlots.reserve (size align : Nat) (s : MemorySlots) : Option Nat × MemorySlots :=
  match findFit size align s.available with
  | some (off, avail') =>
    (some off, { s with available := avail', reserved := s.reserved ++ [(off, size)] })
  | none => (none, s)

/-- Modelled from the spec: `MemorySlots::release(offset, size)`; `false`
when the range was not actually reserved (defensive check), otherwise
frees the range, merging adjacent free neighbours. -/
def MemorySlots.release (off size : Nat) (s : MemorySlots) : Bool × MemorySlots :=
  if s.reserved.contains (off, size) then
    let avail' := if size = 0 then s.available else insertRun off size s.available
    (true, { s with reserved := s.reserved.erase (off, size), available := avail' })
  else (false, s)

/-- Modelled from the spec: total reserved bytes. -/
def MemorySlots.totalReservedSize (s : MemorySlots) : Nat :=
  (s.reserved.map Prod.snd).sum

/-- Modelled from the spec: total available (free) bytes. -/
def MemorySlots.totalAvailableSize (s : MemorySlots) : Nat :=
  (s.available.map Prod.snd).sum

/-- Modelled from the spec: total capacity of the tracked region. -/
def MemorySlots.totalMemorySize (s : MemorySlots) : Nat :=
  s.capacity

/-- Modelled from the spec: `empty()` is true iff zero bytes are reserved. -/
def MemorySlots.isEmpty (s : MemorySlots) : Bool :=
  s.totalReservedSize == 0

/-! ## `vsg::Allocator::MemoryBlock` (part_002 lines 532-581) -/

/-- `alignof(std::max_align_t)` on the target platforms (the code then
takes a 16-byte floor anyway, line 537, so the exact value is absorbed). -/
def maxAlignT : Nat := 16

/-- One raw memory block plus its slot tracker
(part_002 lines 532-545).  `memory` is the base address handed out by
the system allocation. -/
structure MemoryBlock where
  memory : Nat
  alignment : Nat
  block_alignment : Nat
  memorySlots : MemorySlots
  deriving Repr, DecidableEq

/-- `MemoryBlock::MemoryBlock(blockSize, memoryTracking, in_alignment)`
(lines 532-545): `block_alignment = max(max(alignment, alignof(max_align_t)), 16)`;
the raw region base `base` is supplied by the modelled system heap. -/
def MemoryBlock.mkNew (base blockSize memoryTracking in_alignment : Nat) : MemoryBlock :=
  { memory := base,
    alignment := in_alignment,
    block_alignment := max (max in_alignment maxAlignT) 16,
    memorySlots := MemorySlots.mkFresh blockSize memoryTracking }

/-- Capacity of the block (`memorySlots.totalMemorySize()`). -/
def MemoryBlock.capacity (b : MemoryBlock) : Nat :=
  b.memorySlots.totalMemorySize

/-- `MemoryBlock::allocate(size)` (lines 557-564): reserve via the slot
tracker; on success the pointer is `memory + offset`, else null. -/
def MemoryBlock.allocate (b : MemoryBlock) (size : Nat) : Option Nat × MemoryBlock :=
  match b.memorySlots.reserve size b.alignment with
  | (some off, s') => (some (b.memory + off), { b with memorySlots := s' })
  | (none, s') => (none, { b with memorySlots := s' })

/-- `MemoryBlock::deallocate(ptr, size)` (lines 566-581): if `ptr` is in
`[memory, memory + totalMemorySize())` then release the offset (a failed
release only logs a warning) and return `true`; else return `false`. -/
def MemoryBlock.deallocate (b : MemoryBlock) (ptr size : Nat) : Bool × MemoryBlock :=
  if b.memory ≤ ptr then
    if ptr - b.memory < b.memorySlots.totalMemorySize then
      let rel := b.memorySlots.release (ptr - b.memory) size
      -- when rel.fst is false the code logs "couldn't release" and still returns true
      (true, { b with memorySlots := rel.snd })
    else (false, b)
  else (false, b)

/-! ## `vsg::Allocator::MemoryBlocks` (part_002 lines 587-733)

The C++ member `std::map<void*, std::shared_ptr<MemoryBlock>> memoryBlocks`
is a key-sorted association list from base address to block; the
non-owning cache `std::shared_ptr<MemoryBlock> latestMemoryBlock` is
modelled by the base address of the block it designates (`none` = null). -/

/-- One affinity group of memory blocks (lines 587-597). -/
structure MemoryBlocks where
  name : String
  blockSize : Nat
  alignment : Nat
  memoryBlocks : List (Nat × MemoryBlock)
  latestMemoryBlock : Option Nat
  deriving Repr, DecidableEq

/-- `MemoryBlocks::MemoryBlocks(parent, name, blockSize, alignment)`:
a fresh group owns no blocks and has a null latest-block cache. -/
def MemoryBlocks.mkNew (name : String) (blockSize alignment : Nat) : MemoryBlocks :=
  { name := name, blockSize := blockSize, alignment := alignment,
    memoryBlocks := [], latestMemoryBlock := none }

/-- Look up the block stored under base address `k`. -/
def lookupBlock (k : Nat) : List (Nat × MemoryBlock) → Option MemoryBlock
  | [] => none
  | (k1, b) :: rest => if k1 = k then some b else lookupBlock k rest

/-- Replace the (first, in practice unique) block stored under `k`. -/
def updateBlock (k : Nat) (b : MemoryBlock) : List (Nat × MemoryBlock) → List (Nat × MemoryBlock)
  | [] => []
  | (k1, b1) :: rest => if k1 = k then (k, b) :: rest else (k1, b1) :: updateBlock k b rest

/-- `std::map` insertion of a fresh key: place `(k, b)` in key order. -/
def insertSorted (k : Nat) (b : MemoryBlock) : List (Nat × MemoryBlock) → List (Nat × MemoryBlock)
  | [] => [(k, b)]
  | (k1, b1) :: rest =>
    if k < k1 then (k, b) :: (k1, b1) :: rest else (k1, b1) :: insertSorted k b rest

/-- Step 1 of `MemoryBlocks::allocate` (lines 609-613): if the cached
latest block exists, try it first. -/
def MemoryBlocks.tryLatest (g : MemoryBlocks) (size : Nat) : Option (Nat × MemoryBlocks) :=
  match g.latestMemoryBlock with
  | none => none
  | some k =>
    match lookupBlock k g.memoryBlocks with
    | none => none
    | some b =>
      match b.allocate size with
      | (some p, b') => some (p, { g with memoryBlocks := updateBlock k b' g.memoryBlocks })
      | (none, _) => none

/-- Step 2 of `MemoryBlocks::allocate` (lines 615-624): scan the owned
blocks from last to first (the argument list is the reversed map),
skipping the cached latest block, and take the first success. -/
def tryOthers (skip : Option Nat) (size : Nat) :
    List (Nat × MemoryBlock) → Option (Nat × List (Nat × MemoryBlock))
  | [] => none
  | (k, b) :: rest =>
    if some k = skip then
      match tryOthers skip size rest with
      | some (p, rest') => some (p, (k, b) :: rest')
      | none => none
    else
      match b.allocate size with
      | (some p, b') => some (p, (k, b') :: rest)
      | (none, _) =>
        match tryOthers skip size rest with
        | some (p, rest') => some (p, (k, b) :: rest')
        | none => none

/-- The base address the modelled system heap hands to a new block:
the heap cursor rounded up to the block alignment of lines 536-537. -/
def newBlockBase (nextAddr alignment : Nat) : Nat :=
  alignUp nextAddr (max (max alignment maxAlignT) 16)

/-- `MemoryBlocks::allocate(size)` (lines 607-641).  `memoryTracking` is
`parent->memoryTracking` (stored into a newly created block's tracker);
`nextAddr` is the modelled system heap cursor, advanced when a new block
is created.  Returns `(pointer-or-null, new heap cursor, new group)`. -/
def MemoryBlocks.allocate (memoryTracking nextAddr : Nat) (g : MemoryBlocks) (size : Nat) :
    Option Nat × Nat × MemoryBlocks :=
  match g.tryLatest size with
  | some (p, g') => (some p, nextAddr, g')
  | none =>
    match tryOthers g.latestMemoryBlock size g.memoryBlocks.reverse with
    | some (p, rev') => (some p, nextAddr, { g with memoryBlocks := rev'.reverse })
    | none =>
      -- lines 626-640: new_blockSize = std::max(size, blockSize); create the
      -- block, cache it as latest, allocate from it, insert it keyed by base
      match (MemoryBlock.mkNew (newBlockBase nextAddr g.alignment) (max size g.blockSize)
               memoryTracking g.alignment).allocate size with
      | (p, b') =>
        (p, newBlockBase nextAddr g.alignment + max size g.blockSize,
         { g with memoryBlocks := insertSorted (newBlockBase nextAddr g.alignment) b' g.memoryBlocks,
                  latestMemoryBlock := some (newBlockBase nextAddr g.alignment) })

/-- `std::map::upper_bound(ptr)` over the key-sorted association list:
the index of the first entry whose key is strictly greater than `ptr`
(`none` when every key is at most `ptr`). -/
def findFirstGreater (ptr : Nat) : List (Nat × MemoryBlock) → Option Nat
  | [] => none
  | kb :: rest => if ptr < kb.1 then some 0 else (findFirstGreater ptr rest).map (· + 1)

/-- The index of the block `MemoryBlocks::deallocate` tries (lines 647-666):
`upper_bound(ptr)` finds the first key greater than `ptr`; the code then
tries the block just before it, or the first block when `upper_bound` is
`begin()`, or the last block when `upper_bound` is `end()`. -/
def upperBoundIdx (ptr : Nat) (l : List (Nat × MemoryBlock)) : Nat :=
  match findFirstGreater ptr l with
  | some 0 => 0                     -- itr == begin(): try *begin
  | some (j + 1) => j               -- --itr: the predecessor block
  | none => l.length - 1            -- end(): try *rbegin

/-- `MemoryBlocks::deallocate(ptr, size)` (lines 643-673).  The
`memoryBlocks.empty()` early return of line 645 is subsumed by the
`none` branch: the chosen index is within bounds exactly when the map is
non-empty, so the lookup fails exactly when the map is empty. -/
def MemoryBlocks.deallocate (g : MemoryBlocks) (ptr size : Nat) : Bool × MemoryBlocks :=
  match g.memoryBlocks.get? (upperBoundIdx ptr g.memoryBlocks) with
  | some (k, b) =>
    match b.deallocate ptr size with
    | (true, b') =>
      (true, { g with memoryBlocks :=
                 g.memoryBlocks.set (upperBoundIdx ptr g.memoryBlocks) (k, b') })
    | (false, _) => (false, g)
  | none => (false, g)

/-- `MemoryBlocks::deleteEmptyMemoryBlocks()` (lines 675-703): walk the
owned blocks, erase every block whose tracker is empty, null the latest
cache when it named an erased block, and sum the erased capacities.
Returns `(memoryDeleted, latest cache, kept blocks)`. -/
def deleteEmptyLoop (latest : Option Nat) :
    List (Nat × MemoryBlock) → Nat × Option Nat × List (Nat × MemoryBlock)
  | [] => (0, latest, [])
  | (k, b) :: rest =>
    if b.memorySlots.isEmpty then
      let latest' := if latest = some k then none else latest
      let r := deleteEmptyLoop latest' rest
      (b.memorySlots.totalMemorySize + r.1, r.2.1, r.2.2)
    else
      let r := deleteEmptyLoop latest rest
      (r.1, r.2.1, (k, b) :: r.2.2)

/-- `MemoryBlocks::deleteEmptyMemoryBlocks()` packaged on the group. -/
def MemoryBlocks.deleteEmptyMemoryBlocks (g : MemoryBlocks) : Nat × MemoryBlocks :=
  let r := deleteEmptyLoop g.latestMemoryBlock g.memoryBlocks
  (r.1, { g with memoryBlocks := r.2.2, latestMemoryBlock := r.2.1 })

/-- Whether the listed blocks contain an empty block whose key is the
cached latest reference (the condition under which the removal loop
nulls the cache). -/
def latestRemovedIn (latest : Option Nat) (l : List (Nat × MemoryBlock)) : Bool :=
  l.any (fun kb => decide (latest = some kb.1) && kb.2.memorySlots.isEmpty)

/-- `MemoryBlocks::totalAvailableSize()` (lines 705-713). -/
def MemoryBlocks.totalAvailableSize (g : MemoryBlocks) : Nat :=
  (g.memoryBlocks.map (fun kb => kb.2.memorySlots.totalAvailableSize)).sum

/-- `MemoryBlocks::totalReservedSize()` (lines 715-723). -/
def MemoryBlocks.totalReservedSize (g : MemoryBlocks) : Nat :=
  (g.memoryBlocks.map (fun kb => kb.2.memorySlots.totalReservedSize)).sum

/-- `MemoryBlocks::totalMemorySize()` (lines 725-733). -/
def MemoryBlocks.totalMemorySize (g : MemoryBlocks) : Nat :=
  (g.memoryBlocks.map (fun kb => kb.2.memorySlots.totalMemorySize)).sum

/-! ## `vsg::Allocator` (part_002 lines 282-526)

The affinity enum values come from the header `vsg/core/Allocator.h`,
which is not under `src/`; the source uses the names
`ALLOCATOR_AFFINITY_OBJECTS/DATA/NODES/PHYSICS/LAST` and resizes the
group vector to `ALLOCATOR_AFFINITY_LAST` before filling the four
entries, so the values are the consecutive small integers 0,1,2,3 with
`LAST = 4` (spec section 3: "small integer enum extensible at runtime"). -/

def ALLOCATOR_AFFINITY_OBJECTS : Nat := 0
def ALLOCATOR_AFFINITY_DATA : Nat := 1
def ALLOCATOR_AFFINITY_NODES : Nat := 2
def ALLOCATOR_AFFINITY_PHYSICS : Nat := 3
def ALLOCATOR_AFFINITY_LAST : Nat := 4

/-- Modelled from the spec: the allocator fallback strategy selection
`{system-new-delete, malloc-free, none}` (spec section 6); the source
tests `ALLOCATOR_TYPE_NEW_DELETE` and `ALLOCATOR_TYPE_MALLOC_FREE`
(lines 408-417), the enum itself lives in the missing header. -/
inductive AllocatorType where
  | ALLOCATOR_TYPE_NO_DELEGATE
  | ALLOCATOR_TYPE_NEW_DELETE
  | ALLOCATOR_TYPE_MALLOC_FREE
  deriving Repr, DecidableEq

/-- `MEMORY_TRACKING_REPORT_ACTIONS` bit: the code only ever tests
`memoryTracking & MEMORY_TRACKING_REPORT_ACTIONS` to decide whether to
log; the flag word itself is an `int`. -/
def MEMORY_TRACKING_REPORT_ACTIONS : Nat := 1

/-- The per-instance state of one `vsg::Allocator` (header members used
by part_002): the group vector, configuration, and the modelled system
heap cursor `nextAddress`.  The nested fallback allocator is split out
into `Allocator.nestedChain` below. -/
structure AllocatorCore where
  default_alignment : Nat
  allocatorType : AllocatorType
  memoryTracking : Nat
  allocatorMemoryBlocks : List (Option MemoryBlocks)
  nextAddress : Nat
  deriving Repr, DecidableEq

/-- `Allocator::Allocator(in_default_alignment)` (lines 282-292):
resize the group vector to `ALLOCATOR_AFFINITY_LAST` and install the
four built-in groups.  The header defaults (not under `src/`) are
modelled from the spec: fallback strategy paired with system
`new`/`delete` (spec sections 4.4 and 7), tracking off by default
(spec section 6: options `{off, report-actions}`). -/
def freshCore (in_default_alignment : Nat) : AllocatorCore :=
  let Megabyte : Nat := 1024 * 1024
  { default_alignment := in_default_alignment,
    allocatorType := .ALLOCATOR_TYPE_NEW_DELETE,
    memoryTracking := 0,
    allocatorMemoryBlocks :=
      [ some (MemoryBlocks.mkNew "MemoryBlocks_OBJECTS" Megabyte in_default_alignment),
        some (MemoryBlocks.mkNew "MemoryBlocks_DATA" (16 * Megabyte) in_default_alignment),
        some (MemoryBlocks.mkNew "MemoryBlocks_NODES" Megabyte in_default_alignment),
        some (MemoryBlocks.mkNew "MemoryBlocks_PHYSICS" Megabyte 16) ],
    nextAddress := 4096 }

/-- Result of one `Allocator::allocate` call.  `outOfBounds` marks the
undefined behaviour of indexing `allocatorMemoryBlocks[allocatorAffinity]`
past the vector's end (line 365 when no group was created); `diverge`
marks reaching line 379, `Allocator::allocate(size, allocatorAffinity)`:
an unconditional self-call with the same arguments made while the
(non-recursive) mutex of line 348 is still held, so the call never
returns. -/
inductive AllocResult where
  | ok (ptr : Nat) (s : AllocatorCore)
  | outOfBounds
  | diverge
  deriving Repr, DecidableEq

/-- Lines 350-363 of `Allocator::allocate`: "create a MemoryBlocks entry
if one doesn't already exist" — the guard of line 351 is
`allocatorAffinity > allocatorMemoryBlocks.size()` (strict); when taken,
the vector is resized to `allocatorAffinity + 1` (padding with null
entries) and a group with a one-megabyte default block size is installed
at index `allocatorAffinity`. -/
def AllocatorCore.ensureMemoryBlocks (s : AllocatorCore) (allocatorAffinity : Nat) :
    AllocatorCore :=
  if allocatorAffinity > s.allocatorMemoryBlocks.length then
    let name := "MemoryBlocks_" ++ toString allocatorAffinity
    let blockSize := 1024 * 1024
    let grown := s.allocatorMemoryBlocks ++
      List.replicate (allocatorAffinity + 1 - s.allocatorMemoryBlocks.length)
        (none : Option MemoryBlocks)
    { s with allocatorMemoryBlocks :=
        grown.set allocatorAffinity (some (MemoryBlocks.mkNew name blockSize s.default_alignment)) }
  else s

/-- `Allocator::allocate(size, allocatorAffinity)` (lines 346-385). -/
def AllocatorCore.allocate (s : AllocatorCore) (size allocatorAffinity : Nat) : AllocResult :=
  let t := s.ensureMemoryBlocks allocatorAffinity
  -- line 365: auto& memoryBlocks = allocatorMemoryBlocks[allocatorAffinity];
  match t.allocatorMemoryBlocks.get? allocatorAffinity with
  | none => .outOfBounds
  | some none => .diverge                        -- null entry: falls to line 379
  | some (some g) =>
    match MemoryBlocks.allocate t.memoryTracking t.nextAddress g size with
    | (some ptr, addr', g') =>
      let groups' := t.allocatorMemoryBlocks.set allocatorAffinity (some g')
      .ok ptr { t with allocatorMemoryBlocks := groups', nextAddress := addr' }
    | (none, _, _) => .diverge                   -- line 379 again

/-- The group-scanning loop of `Allocator::deallocate` (lines 391-404):
try every non-null group in turn, stopping at the first that claims the
pointer. -/
def deallocGroups (ptr size : Nat) :
    List (Option MemoryBlocks) → Bool × List (Option MemoryBlocks)
  | [] => (false, [])
  | none :: rest =>
    match deallocGroups ptr size rest with
    | (r, rest') => (r, none :: rest')
  | some g :: rest =>
    match g.deallocate ptr size with
    | (true, g') => (true, some g' :: rest)
    | (false, g') =>
      match deallocGroups ptr size rest with
      | (r, rest') => (r, some g' :: rest')

/-- `Allocator::deallocate(ptr, size)` over the chain of allocators:
the head core is this allocator, the tail is the chain reached through
`nestedAllocator` (each chain element being one nested allocator's own
state).  Lines 387-420: groups first, then the nested allocator, then
the configured system deallocation. -/
def deallocChain (ptr size : Nat) : List AllocatorCore → Bool × List AllocatorCore
  | [] => (false, [])
  | c :: rest =>
    match deallocGroups ptr size c.allocatorMemoryBlocks with
    | (true, groups') => (true, { c with allocatorMemoryBlocks := groups' } :: rest)
    | (false, groups') =>
      -- line 406: if (nestedAllocator && nestedAllocator->deallocate(ptr, size)) return true;
      match deallocChain ptr size rest with
      | (true, rest') => (true, { c with allocatorMemoryBlocks := groups' } :: rest')
      | (false, rest') =>
        -- lines 408-419: the system-level fallback
        match c.allocatorType with
        | .ALLOCATOR_TYPE_NEW_DELETE => (true, { c with allocatorMemoryBlocks := groups' } :: rest')
        | .ALLOCATOR_TYPE_MALLOC_FREE => (true, { c with allocatorMemoryBlocks := groups' } :: rest')
        | .ALLOCATOR_TYPE_NO_DELEGATE => (false, { c with allocatorMemoryBlocks := groups' } :: rest')

/-- A `vsg::Allocator` with its (possibly empty) chain of nested
fallback allocators: `nestedChain = []` models a null `nestedAllocator`,
otherwise the head of the chain is the directly nested allocator. -/
structure Allocator where
  core : AllocatorCore
  nestedChain : List AllocatorCore
  deriving Repr, DecidableEq

/-- `Allocator::Allocator(in_default_alignment)` with no nested allocator. -/
def freshAllocator (in_default_alignment : Nat) : Allocator :=
  { core := freshCore in_default_alignment, nestedChain := [] }

/-- Result of `Allocator::allocate` at the outer allocator. -/
inductive AllocResultA where
  | ok (ptr : Nat) (s : Allocator)
  | outOfBounds
  | diverge
  deriving Repr, DecidableEq

/-- `Allocator::allocate` never touches the nested allocator
(lines 346-385 only use this allocator's members). -/
def Allocator.allocate (s : Allocator) (size allocatorAffinity : Nat) : AllocResultA :=
  match s.core.allocate size allocatorAffinity with
  | .ok ptr c' => .ok ptr { s with core := c' }
  | .outOfBounds => .outOfBounds
  | .diverge => .diverge

/-- `Allocator::deallocate(ptr, size)` (lines 387-420).  `deallocChain`
on a cons returns a cons, so `headD`/`tail` just repackage the chain. -/
def Allocator.deallocate (s : Allocator) (ptr size : Nat) : Bool × Allocator :=
  let r := deallocChain ptr size (s.core :: s.nestedChain)
  (r.1, { core := r.2.headD s.core, nestedChain := r.2.tail })

/-- `Allocator::deleteEmptyMemoryBlocks()` (lines 422-432). -/
def AllocatorCore.deleteEmptyMemoryBlocks (s : AllocatorCore) : Nat × AllocatorCore :=
  let step := fun (og : Option MemoryBlocks) =>
    match og with
    | none => (0, (none : Option MemoryBlocks))
    | some g =>
      let r := g.deleteEmptyMemoryBlocks
      (r.1, some r.2)
  let results := s.allocatorMemoryBlocks.map step
  ((results.map Prod.fst).sum, { s with allocatorMemoryBlocks := results.map Prod.snd })

/-- `Allocator::totalAvailableSize()` (lines 434-444). -/
def AllocatorCore.totalAvailableSize (s : AllocatorCore) : Nat :=
  (s.allocatorMemoryBlocks.map (fun og => (og.map MemoryBlocks.totalAvailableSize).getD 0)).sum

/-- `Allocator::totalReservedSize()` (lines 446-456). -/
def AllocatorCore.totalReservedSize (s : AllocatorCore) : Nat :=
  (s.allocatorMemoryBlocks.map (fun og => (og.map MemoryBlocks.totalReservedSize).getD 0)).sum

/-- `Allocator::totalMemorySize()` (lines 458-468). -/
def AllocatorCore.totalMemorySize (s : AllocatorCore) : Nat :=
  (s.allocatorMemoryBlocks.map (fun og => (og.map MemoryBlocks.totalMemorySize).getD 0)).sum

/-- Propagate a tracking flag into one block's slot tracker (line 522). -/
def MemoryBlock.setTracking (mt : Nat) (b : MemoryBlock) : MemoryBlock :=
  { b with memorySlots := { b.memorySlots with memoryTracking := mt } }

/-- `Allocator::setMemoryTracking(mt)` (lines 513-526): store the flag
and push it into every existing block's slot tracker.  (The nested
allocator is not touched by the source.) -/
def AllocatorCore.setMemoryTracking (mt : Nat) (s : AllocatorCore) : AllocatorCore :=
  { s with memoryTracking := mt,
           allocatorMemoryBlocks := s.allocatorMemoryBlocks.map (fun og =>
             og.map (fun g =>
               { g with memoryBlocks := g.memoryBlocks.map (fun kb =>
                   (kb.1, kb.2.setTracking mt)) })) }

/-- `Allocator::setMemoryTracking` lifted to the outer allocator. -/
def Allocator.setMemoryTracking (mt : Nat) (s : Allocator) : Allocator :=
  { s with core := s.core.setMemoryTracking mt }

/-! ## Call sequences and observational outcomes

For the memory-tracking noninterference property we run a caller-chosen
sequence of `allocate`/`deallocate` calls and record the observable
outcomes (returned pointers and booleans).  Execution stops at the two
undefined/non-returning paths of `allocate`, which no subsequent call
can follow in a real run. -/

/-- One public call made by a caller. -/
inductive AllocCall where
  | alloc (size allocatorAffinity : Nat)
  | dealloc (ptr size : Nat)
  deriving Repr, DecidableEq

/-- The caller-observable outcome of one call. -/
inductive Observation where
  | allocated (ptr : Nat)
  | allocOutOfBounds
  | allocDiverged
  | freed (ok : Bool)
  deriving Repr, DecidableEq

/-- Run a call sequence, collecting observations. -/
def runCalls : List AllocCall → Allocator → List Observation
  | [], _ => []
  | .alloc size aff :: rest, s =>
    match s.allocate size aff with
    | .ok ptr s' => .allocated ptr :: runCalls rest s'
    | .outOfBounds => [.allocOutOfBounds]
    | .diverge => [.allocDiverged]
  | .dealloc ptr size :: rest, s =>
    let r := s.deallocate ptr size
    .freed r.1 :: runCalls rest r.2

/-! ## Erasing the memory-tracking flags

`eraseMT` zeroes every memory-tracking field of a state; two states that
agree after erasure differ only in tracking verbosity. -/

/-- Zero the tracking flag of a slot tracker. -/
def MemorySlots.eraseMT (s : MemorySlots) : MemorySlots :=
  { s with memoryTracking := 0 }

/-- Zero the tracking flag held inside a block. -/
def MemoryBlock.eraseMT (b : MemoryBlock) : MemoryBlock :=
  { b with memorySlots := b.memorySlots.eraseMT }

/-- Zero the tracking flags of every block of a group. -/
def MemoryBlocks.eraseMT (g : MemoryBlocks) : MemoryBlocks :=
  { g with memoryBlocks := g.memoryBlocks.map (fun kb => (kb.1, kb.2.eraseMT)) }

/-- Zero every tracking flag of one allocator state. -/
def AllocatorCore.eraseMT (s : AllocatorCore) : AllocatorCore :=
  { s with memoryTracking := 0,
           allocatorMemoryBlocks := s.allocatorMemoryBlocks.map (Option.map MemoryBlocks.eraseMT) }

/-- Zero every tracking flag of the allocator and its nested chain. -/
def Allocator.eraseMT (s : Allocator) : Allocator :=
  { core := s.core.eraseMT, nestedChain := s.nestedChain.map AllocatorCore.eraseMT }

/-! ## Mutex discipline of the public operations

A syntactic embedding of the synchronisation structure of the public
`Allocator` member functions: each function body is transcribed as the
sequence of lock acquisitions (`std::scoped_lock` construction),
releases (its destruction at scope exit) and accesses to the shared
allocator state performed outside any callee's own locking.  An access
is "guarded" when it happens while at least one lock on the allocator
mutex is held. -/

inductive LockAction where
  | lock
  | unlock
  | access
  deriving Repr, DecidableEq

/-- The public operations named by the concurrency claim. -/
inductive PublicOp where
  | allocate
  | deallocate
  | report
  | deleteEmptyMemoryBlocks
  | totalAvailableSize
  | totalReservedSize
  | totalMemorySize
  | setBlockSize
  | setMemoryTracking
  deriving Repr, DecidableEq

/-- Transcription of each member function's body (part_002):
`allocate` 346-385, `deallocate` 387-420, `report` 310-344 (line 312
reads `allocatorMemoryBlocks.size()` and lines 313-314 call the
self-locking `total*Size()` queries before the lock of line 316 is
taken), `deleteEmptyMemoryBlocks` 422-432, the three `total*Size`
queries 434-468, `setBlockSize` 496-511, and `setMemoryTracking`
513-526, whose body never takes the mutex. -/
def opTrace : PublicOp → List LockAction
  | .allocate => [.lock, .access, .unlock]
  | .deallocate => [.lock, .access, .unlock]
  | .report =>
    [.access,                                     -- line 312, before any lock
     .lock, .access, .unlock,                     -- totalAvailableSize() in line 313
     .lock, .access, .unlock,                     -- totalReservedSize() in line 313
     .lock, .access, .unlock,                     -- totalMemorySize() in line 313
     .lock, .access, .unlock,                     -- totalReservedSize() in line 314
     .lock, .access, .unlock]                     -- lines 316-343
  | .deleteEmptyMemoryBlocks => [.lock, .access, .unlock]
  | .totalAvailableSize => [.lock, .access, .unlock]
  | .totalReservedSize => [.lock, .access, .unlock]
  | .totalMemorySize => [.lock, .access, .unlock]
  | .setBlockSize => [.lock, .access, .unlock]
  | .setMemoryTracking => [.access]               -- lines 513-526: no scoped_lock

/-- `guarded d t`: scanning trace `t` with `d` locks currently held,
every shared-state access happens under at least one held lock. -/
def guarded : Nat → List LockAction → Bool
  | _, [] => true
  | d, .lock :: rest => guarded (d + 1) rest
  | d, .unlock :: rest => guarded (d - 1) rest
  | d, .access :: rest => decide (0 < d) && guarded d rest

/-- An operation holds the allocator mutex around all its shared-state
work iff its whole trace is guarded starting from no held lock. -/
def holdsLockThroughout (op : PublicOp) : Bool :=
  guarded 0 (opTrace op)

/-! ## Well-formedness of allocator states

The state invariants the round-trip property is proved under; they hold
for the freshly constructed allocator and express exactly what the heap
and `std::map` guarantee in the C++: blocks occupy pairwise disjoint
address ranges handed out below the heap cursor, the per-group maps are
key-sorted with the key equal to the block's base address, every block
has positive capacity, and each tracker's free runs stay inside its
block's capacity. -/

/-- Free runs lie within the tracker's capacity. -/
def MemorySlots.runsBounded (s : MemorySlots) : Bool :=
  s.available.all (fun r => r.1 + r.2 ≤ s.capacity)

/-- Block-level invariant. -/
def MemoryBlock.wfB (b : MemoryBlock) : Bool :=
  b.memorySlots.runsBounded && decide (0 < b.memorySlots.capacity)

/-- Keys strictly increase along the association list. -/
def sortedKeys : List (Nat × MemoryBlock) → Bool
  | [] => true
  | [_] => true
  | x :: y :: rest => decide (x.1 < y.1) && sortedKeys (y :: rest)

/-- Group-level invariant relative to the heap cursor `addr`. -/
def MemoryBlocks.wfG (addr : Nat) (g : MemoryBlocks) : Bool :=
  sortedKeys g.memoryBlocks &&
  g.memoryBlocks.all (fun kb =>
    kb.2.memory == kb.1 && kb.2.wfB && decide (kb.1 + kb.2.capacity ≤ addr))

/-- All blocks of all groups of a core, in group order. -/
def allBlocks (s : AllocatorCore) : List (Nat × MemoryBlock) :=
  s.allocatorMemoryBlocks.flatMap (fun og => (og.map MemoryBlocks.memoryBlocks).getD [])

/-- The address ranges `[k, k+capacity)` of two blocks do not intersect. -/
def disjB (x y : Nat × MemoryBlock) : Bool :=
  decide (x.1 + x.2.capacity ≤ y.1) || decide (y.1 + y.2.capacity ≤ x.1)

/-- All listed blocks occupy pairwise disjoint address ranges. -/
def pairwiseDisjoint : List (Nat × MemoryBlock) → Bool
  | [] => true
  | x :: rest => rest.all (fun y => disjB x y) && pairwiseDisjoint rest

/-- Well-formedness of one allocator core. -/
def AllocatorCore.wf (s : AllocatorCore) : Bool :=
  s.allocatorMemoryBlocks.all (fun og => (og.map (MemoryBlocks.wfG s.nextAddress)).getD true) &&
  pairwiseDisjoint (allBlocks s)

/-- Reserved bytes of the group at one affinity index (0 when the index
has no group). -/
def AllocatorCore.reservedOfAffinity (s : AllocatorCore) (affinity : Nat) : Nat :=
  match s.allocatorMemoryBlocks.get? affinity with
  | some (some g) => g.totalReservedSize
  | _ => 0

/-- The guard of line 351 that decides whether `allocate` takes the lazy
group-creation branch: `allocatorAffinity > allocatorMemoryBlocks.size()`. -/
def AllocatorCore.lazyCreationTriggered (s : AllocatorCore) (affinity : Nat) : Bool :=
  affinity > s.allocatorMemoryBlocks.length

/-- Whether the configured allocator type has a system-level deallocation
fallback (lines 408-417: `operator delete` or `std::free`). -/
def systemFallbackApplies : AllocatorType → Bool
  | .ALLOCATOR_TYPE_NEW_DELETE => true
  | .ALLOCATOR_TYPE_MALLOC_FREE => true
  | .ALLOCATOR_TYPE_NO_DELEGATE => false

/-- Whether some non-null group in the vector claims the pointer. -/
def groupsClaim (ptr size : Nat) (L : List (Option MemoryBlocks)) : Bool :=
  L.any (fun og => (og.map (fun g => (g.deallocate ptr size).1)).getD false)

/-- The allocator state after a successful probe call
`allocate(16, OBJECTS)` on a freshly constructed allocator (the probe
used to evaluate the round-trip property on a concrete input). -/
def claim6ProbeState : Allocator :=
  match (freshAllocator 4).allocate 16 ALLOCATOR_AFFINITY_OBJECTS with
  | AllocResultA.ok _ s₁ => s₁
  | _ => freshAllocator 4

/-! # Theorems -/

/-! ## Supporting lemmas -/

/-- The group-scanning loop of `Allocator::deallocate` succeeds exactly
when some non-null group's own `deallocate` claims the pointer. -/
theorem deallocGroups_fst (ptr size : Nat) (L : List (Option MemoryBlocks)) :
    (deallocGroups ptr size L).1 = groupsClaim ptr size L := by
  induction L with
  | nil => rfl
  | cons og rest ih =>
    cases og with
    | none =>
      simp only [deallocGroups, groupsClaim, List.any_cons] at *
      simpa using ih
    | some g =>
      rcases hd : g.deallocate ptr size with ⟨b, g'⟩
      simp only [groupsClaim] at ih ⊢
      cases b
      · have hh : ((some g).map (fun g => (g.deallocate ptr size).1)).getD false = false := by
          simp [hd]
        simp only [deallocGroups, hd, List.any_cons, hh, Bool.false_or]
        exact ih
      · simp [deallocGroups, hd, List.any_cons]

/-- Length of the group vector is unchanged by the group-scanning loop. -/
theorem deallocGroups_length (ptr size : Nat) (L : List (Option MemoryBlocks)) :
    (deallocGroups ptr size L).2.length = L.length := by
  induction L with
  | nil => rfl
  | cons og rest ih =>
    cases og with
    | none => simp [deallocGroups, ih]
    | some g =>
      rcases hd : g.deallocate ptr size with ⟨b, g'⟩
      cases b <;> simp [deallocGroups, hd, ih]

/-! ## C1: the lazy group-creation guard is off by one

Claim C1 states that `Allocator::allocate(size, affinity)` creates a
group whenever `affinity` is at or beyond the current group-array
length, so that the read `allocatorMemoryBlocks[allocatorAffinity]` on
line 365 is always in bounds — in particular when `affinity` equals the
current length.  The guard on line 351 is
`allocatorAffinity > allocatorMemoryBlocks.size()` (strict), so when
`affinity` equals the length no group is created and line 365 indexes
one past the end of the vector. -/

/-- C1: on a freshly constructed allocator (four groups, so the group
vector has length `ALLOCATOR_AFFINITY_LAST = 4`), allocating with
affinity 4 creates no group and reads `allocatorMemoryBlocks[4]` out of
bounds, contradicting the claim that the access is always in bounds. -/
theorem claim1_allocate_out_of_bounds_when_affinity_equals_length :
    Allocator.allocate (freshAllocator 4) 16 ALLOCATOR_AFFINITY_LAST =
      AllocResultA.outOfBounds := by
  rfl

/-! ## C2: the fallback path is an infinite self-call

Claim C2 states that when the group entry for the affinity is null, the
call falls back to the system allocator and returns.  Line 379 instead
reads `void* ptr = Allocator::allocate(size, allocatorAffinity);` — an
unconditional call of the very function being defined, with the same
arguments, while the `std::scoped_lock` of line 348 still holds the
non-recursive `std::mutex`; the call can never return. -/

/-- C2: allocating with affinity 6 on a fresh allocator grows the group
vector to length 7, leaving null entries at indices 4 and 5; a
subsequent allocate with affinity 5 finds the null entry, skips the
group path, and reaches the self-call of line 379 — modelled as
`diverge` — instead of returning from a system-allocator fallback. -/
theorem claim2_allocate_diverges_on_null_group_entry :
    (match Allocator.allocate (freshAllocator 4) 16 6 with
     | .ok _ s' => s'.allocate 16 5
     | r => r) = AllocResultA.diverge := by
  rfl

/-! ## C3: `MemoryBlock::deallocate` ignores the release result

Claim C3 states that for an in-range pointer the boolean result of
`MemoryBlock::deallocate` equals the result of the slot tracker's
`release`.  Lines 573-577 log a warning when `release` fails but return
`true` for every in-range pointer regardless. -/

/-- C3 counterexample: on a fresh 64-byte block at base 4096 nothing is
reserved, so `release(0, 16)` reports failure, yet
`deallocate(4096, 16)` returns `true`: the two results differ. -/
theorem claim3_counterexample_deallocate_result_differs_from_release :
    ¬ (((MemoryBlock.mkNew 4096 64 0 4).deallocate 4096 16).1 =
       ((MemoryBlock.mkNew 4096 64 0 4).memorySlots.release 0 16).1) := by
  decide

/-- C3 (amended): `deallocate(ptr, size)` returns `false` exactly when
`ptr` lies outside `[base, base + capacity)`, leaving the block
untouched; for an in-range pointer it delegates the byte offset to the
slot tracker's `release` (logging a diagnostic when release reports the
range was not reserved) and returns `true` regardless of release's
result. -/
theorem claim3_deallocate_in_range_iff_and_delegates (b : MemoryBlock) (ptr size : Nat) :
    ((b.deallocate ptr size).1 = true ↔ b.memory ≤ ptr ∧ ptr < b.memory + b.capacity) ∧
    ((b.deallocate ptr size).1 = false → (b.deallocate ptr size).2 = b) ∧
    (b.memory ≤ ptr → ptr < b.memory + b.capacity →
      (b.deallocate ptr size).2 =
        { b with memorySlots := (b.memorySlots.release (ptr - b.memory) size).2 }) := by
  have hcap : b.capacity = b.memorySlots.capacity := rfl
  by_cases h1 : b.memory ≤ ptr
  · by_cases h2 : ptr - b.memory < b.memorySlots.capacity
    · have hd : b.deallocate ptr size =
          (true, { b with memorySlots := (b.memorySlots.release (ptr - b.memory) size).2 }) := by
        unfold MemoryBlock.deallocate MemorySlots.totalMemorySize
        rw [if_pos h1, if_pos h2]
      refine ⟨?_, ?_, ?_⟩
      · rw [hd]
        exact iff_of_true rfl ⟨h1, by rw [hcap]; omega⟩
      · intro h
        rw [hd] at h
        simp at h
      · intro _ _
        rw [hd]
    · have hd : b.deallocate ptr size = (false, b) := by
        unfold MemoryBlock.deallocate MemorySlots.totalMemorySize
        rw [if_pos h1, if_neg h2]
      refine ⟨?_, ?_, ?_⟩
      · rw [hd]
        exact iff_of_false (by simp) (fun hc => h2 (by rw [hcap] at hc; omega))
      · intro _
        rw [hd]
      · intro _ hc
        exact absurd (show ptr - b.memory < b.memorySlots.capacity by rw [hcap] at hc; omega) h2
  · have hd : b.deallocate ptr size = (false, b) := by
      unfold MemoryBlock.deallocate
      rw [if_neg h1]
    refine ⟨?_, ?_, ?_⟩
    · rw [hd]
      exact iff_of_false (by simp) (fun hc => h1 hc.1)
    · intro _
      rw [hd]
    · intro hc
      exact absurd hc h1

/-- C3 witness: a pointer 4 bytes into a fresh 64-byte block at base
4096 is in range, so `deallocate` returns `true`. -/
theorem claim3_witness :
    ((MemoryBlock.mkNew 4096 64 0 4).deallocate 4100 16).1 = true :=
  ((claim3_deallocate_in_range_iff_and_delegates
    (MemoryBlock.mkNew 4096 64 0 4) 4100 16).1).mpr (by decide)

/-! ## C9: the single-lock discipline

Claim C9 states every public operation holds the allocator mutex for its
duration.  `setMemoryTracking` (lines 513-526) never takes the lock, and
`report` (lines 310-344) reads the group vector's size (line 312) and
calls the four self-locking aggregate queries (lines 313-314) before its
own lock on line 316 is acquired. -/

/-- C9 counterexample: `setMemoryTracking` mutates the tracking flags of
the allocator and of every block's slot tracker without ever acquiring
the allocator mutex. -/
theorem claim9_counterexample_setMemoryTracking_unguarded :
    holdsLockThroughout PublicOp.setMemoryTracking = false := by
  decide

/-- C9 (amended): `allocate`, `deallocate`, `deleteEmptyMemoryBlocks`,
the three aggregate-size queries and `setBlockSize` each hold the
allocator mutex around all their shared-state work; `report` performs
shared-state reads before acquiring its lock, and `setMemoryTracking`
never acquires the lock at all. -/
theorem claim9_lock_discipline_of_public_ops :
    (∀ op : PublicOp, op ≠ .report → op ≠ .setMemoryTracking →
       holdsLockThroughout op = true) ∧
    holdsLockThroughout PublicOp.report = false ∧
    holdsLockThroughout PublicOp.setMemoryTracking = false := by
  refine ⟨?_, by decide, by decide⟩
  intro op h1 h2
  cases op
  case report => exact absurd rfl h1
  case setMemoryTracking => exact absurd rfl h2
  all_goals rfl

/-- C9 witness: `allocate` is lock-guarded throughout. -/
theorem claim9_witness : holdsLockThroughout PublicOp.allocate = true :=
  claim9_lock_discipline_of_public_ops.1 PublicOp.allocate (by decide) (by decide)

/-! ## Supporting lemmas about `ensureMemoryBlocks` and lengths -/

/-- `ensureMemoryBlocks` leaves every field but the group vector alone. -/
theorem ensureMemoryBlocks_fields (s : AllocatorCore) (aff : Nat) :
    (s.ensureMemoryBlocks aff).memoryTracking = s.memoryTracking ∧
    (s.ensureMemoryBlocks aff).nextAddress = s.nextAddress ∧
    (s.ensureMemoryBlocks aff).default_alignment = s.default_alignment ∧
    (s.ensureMemoryBlocks aff).allocatorType = s.allocatorType := by
  unfold AllocatorCore.ensureMemoryBlocks
  split <;> simp

/-- `ensureMemoryBlocks` never shrinks the group vector. -/
theorem ensureMemoryBlocks_length_mono (s : AllocatorCore) (aff : Nat) :
    s.allocatorMemoryBlocks.length ≤ (s.ensureMemoryBlocks aff).allocatorMemoryBlocks.length := by
  unfold AllocatorCore.ensureMemoryBlocks
  split
  · simp only [List.length_set, List.length_append, List.length_replicate]
    omega
  · exact Nat.le_refl _

/-- Entries below the old length are unchanged by `ensureMemoryBlocks`
(the guard only fires for `aff` strictly above the length, and then pads
with null entries and writes index `aff`). -/
theorem ensureMemoryBlocks_get_lt (s : AllocatorCore) (aff i : Nat)
    (hi : i < s.allocatorMemoryBlocks.length) :
    (s.ensureMemoryBlocks aff).allocatorMemoryBlocks.get? i =
      s.allocatorMemoryBlocks.get? i := by
  unfold AllocatorCore.ensureMemoryBlocks
  split
  · next hgt =>
    rw [List.get?_set_ne]
    · exact List.get?_append hi
    · omega
  · rfl

/-- Destruct a successful `AllocatorCore.allocate`. -/
theorem AllocatorCore.allocate_ok_elim {s : AllocatorCore} {size aff ptr : Nat}
    {s' : AllocatorCore} (h : s.allocate size aff = .ok ptr s') :
    ∃ g addr' g',
      (s.ensureMemoryBlocks aff).allocatorMemoryBlocks.get? aff = some (some g) ∧
      MemoryBlocks.allocate s.memoryTracking s.nextAddress g size = (some ptr, addr', g') ∧
      s'.allocatorMemoryBlocks =
        (s.ensureMemoryBlocks aff).allocatorMemoryBlocks.set aff (some g') ∧
      s'.nextAddress = addr' ∧
      s'.default_alignment = s.default_alignment ∧
      s'.allocatorType = s.allocatorType ∧
      s'.memoryTracking = s.memoryTracking := by
  obtain ⟨hmt, hna, hda, hat⟩ := ensureMemoryBlocks_fields s aff
  simp only [AllocatorCore.allocate] at h
  split at h
  · exact absurd h (by simp)
  · exact absurd h (by simp)
  · rename_i g hg
    split at h
    · rename_i p addr' g' hm
      rw [hmt, hna] at hm
      simp only [AllocResult.ok.injEq] at h
      obtain ⟨hp, hs⟩ := h
      subst hp
      refine ⟨g, addr', g', hg, hm, ?_, ?_, ?_, ?_, ?_⟩ <;>
        rw [← hs] <;> simp [hmt, hda, hat]
    · exact absurd h (by simp)

/-- A successful `allocate` never shrinks the group vector. -/
theorem AllocatorCore.allocate_length_mono {s : AllocatorCore} {size aff ptr : Nat}
    {s' : AllocatorCore} (h : s.allocate size aff = .ok ptr s') :
    s.allocatorMemoryBlocks.length ≤ s'.allocatorMemoryBlocks.length := by
  obtain ⟨g, addr', g', _, _, hset, _⟩ := AllocatorCore.allocate_ok_elim h
  rw [hset, List.length_set]
  exact ensureMemoryBlocks_length_mono s aff

/-- `Allocator::deallocate` keeps the number of group entries. -/
theorem Allocator.deallocate_core_length (s : Allocator) (ptr size : Nat) :
    ((s.deallocate ptr size).2).core.allocatorMemoryBlocks.length =
      s.core.allocatorMemoryBlocks.length := by
  have hlen := deallocGroups_length ptr size s.core.allocatorMemoryBlocks
  rcases hg : deallocGroups ptr size s.core.allocatorMemoryBlocks with ⟨bg, groups'⟩
  rw [hg] at hlen
  rcases hr : deallocChain ptr size s.nestedChain with ⟨br, rest'⟩
  cases bg
  · cases br
    · cases htype : s.core.allocatorType <;>
        simp [Allocator.deallocate, deallocChain, hg, hr, htype, hlen]
    · simp [Allocator.deallocate, deallocChain, hg, hr, hlen]
  · simp [Allocator.deallocate, deallocChain, hg, hlen]

/-- `deleteEmptyMemoryBlocks` keeps the number of group entries. -/
theorem AllocatorCore.deleteEmpty_length (s : AllocatorCore) :
    (s.deleteEmptyMemoryBlocks).2.allocatorMemoryBlocks.length =
      s.allocatorMemoryBlocks.length := by
  simp [AllocatorCore.deleteEmptyMemoryBlocks]

/-- `setMemoryTracking` keeps the number of group entries. -/
theorem AllocatorCore.setMemoryTracking_length (s : AllocatorCore) (mt : Nat) :
    (s.setMemoryTracking mt).allocatorMemoryBlocks.length =
      s.allocatorMemoryBlocks.length := by
  simp [AllocatorCore.setMemoryTracking]

/-! ## C10: the constructor pre-creates the four built-in groups -/

/-- C10: a freshly constructed allocator owns four groups, for
`OBJECTS`, `DATA`, `NODES` and `PHYSICS`, with default block sizes one
megabyte, sixteen megabytes, one megabyte and one megabyte, `PHYSICS`
using alignment 16 and the others the allocator's default alignment
(lines 282-292); every affinity below `ALLOCATOR_AFFINITY_LAST` is
below the group-vector length, so the lazy group-creation guard of
line 351 never fires for a built-in affinity — and the group-vector
length never decreases under `allocate`, `deallocate`,
`deleteEmptyMemoryBlocks` or `setMemoryTracking`. -/
theorem claim10_constructor_builtin_groups (d : Nat) :
    (freshCore d).allocatorMemoryBlocks.length = ALLOCATOR_AFFINITY_LAST ∧
    (freshCore d).allocatorMemoryBlocks.get? ALLOCATOR_AFFINITY_OBJECTS =
      some (some (MemoryBlocks.mkNew "MemoryBlocks_OBJECTS" (1024 * 1024) d)) ∧
    (freshCore d).allocatorMemoryBlocks.get? ALLOCATOR_AFFINITY_DATA =
      some (some (MemoryBlocks.mkNew "MemoryBlocks_DATA" (16 * (1024 * 1024)) d)) ∧
    (freshCore d).allocatorMemoryBlocks.get? ALLOCATOR_AFFINITY_NODES =
      some (some (MemoryBlocks.mkNew "MemoryBlocks_NODES" (1024 * 1024) d)) ∧
    (freshCore d).allocatorMemoryBlocks.get? ALLOCATOR_AFFINITY_PHYSICS =
      some (some (MemoryBlocks.mkNew "MemoryBlocks_PHYSICS" (1024 * 1024) 16)) ∧
    (∀ a, a < ALLOCATOR_AFFINITY_LAST → (freshCore d).lazyCreationTriggered a = false) ∧
    (∀ s : AllocatorCore, ∀ a, a ≤ s.allocatorMemoryBlocks.length →
       s.lazyCreationTriggered a = false) ∧
    (∀ (s s' : AllocatorCore) (size aff ptr : Nat), s.allocate size aff = .ok ptr s' →
       s.allocatorMemoryBlocks.length ≤ s'.allocatorMemoryBlocks.length) ∧
    (∀ (s : Allocator) (ptr size : Nat),
       ((s.deallocate ptr size).2).core.allocatorMemoryBlocks.length =
         s.core.allocatorMemoryBlocks.length) ∧
    (∀ s : AllocatorCore, (s.deleteEmptyMemoryBlocks).2.allocatorMemoryBlocks.length =
       s.allocatorMemoryBlocks.length) ∧
    (∀ (s : AllocatorCore) (mt : Nat),
       (s.setMemoryTracking mt).allocatorMemoryBlocks.length =
         s.allocatorMemoryBlocks.length) := by
  refine ⟨rfl, rfl, rfl, rfl, rfl, ?_, ?_, ?_, ?_, ?_, ?_⟩
  · intro a ha
    have hlen : (freshCore d).allocatorMemoryBlocks.length = 4 := rfl
    simp only [AllocatorCore.lazyCreationTriggered, hlen, gt_iff_lt,
      decide_eq_false_iff_not]
    simp only [ALLOCATOR_AFFINITY_LAST] at ha
    omega
  · intro s a ha
    simp only [AllocatorCore.lazyCreationTriggered, gt_iff_lt, decide_eq_false_iff_not]
    omega
  · intro s s' size aff ptr h
    exact AllocatorCore.allocate_length_mono h
  · exact Allocator.deallocate_core_length
  · exact AllocatorCore.deleteEmpty_length
  · exact AllocatorCore.setMemoryTracking_length

/-- C10 witness: on the default-aligned fresh allocator, the `NODES`
affinity does not trigger lazy group creation. -/
theorem claim10_witness :
    (freshCore 4).lazyCreationTriggered ALLOCATOR_AFFINITY_NODES = false :=
  (claim10_constructor_builtin_groups 4).2.2.2.2.2.1 ALLOCATOR_AFFINITY_NODES (by decide)

/-! ## C7: the deallocate fallback chain -/

/-- C7: `Allocator::deallocate` returns true exactly when some existing
group claims the pointer, or the nested fallback allocator (itself
running the same group/nested/system chain) claims it, or the
configured allocator type is system new/delete or malloc/free; it
returns false only when all three fail. -/
theorem claim7_deallocate_fallback_chain (s : Allocator) (ptr size : Nat) :
    (s.deallocate ptr size).1 =
      (groupsClaim ptr size s.core.allocatorMemoryBlocks ||
       (deallocChain ptr size s.nestedChain).1 ||
       systemFallbackApplies s.core.allocatorType) := by
  have hfst := deallocGroups_fst ptr size s.core.allocatorMemoryBlocks
  rcases hg : deallocGroups ptr size s.core.allocatorMemoryBlocks with ⟨bg, groups'⟩
  rw [hg] at hfst
  rcases hr : deallocChain ptr size s.nestedChain with ⟨br, rest'⟩
  cases bg
  · cases br
    · cases htype : s.core.allocatorType <;>
        simp [Allocator.deallocate, deallocChain, hg, hr, htype, ← hfst,
          systemFallbackApplies]
    · simp [Allocator.deallocate, deallocChain, hg, hr, ← hfst]
  · simp [Allocator.deallocate, deallocChain, hg, ← hfst]

/-- C7 witness: evaluated on the fresh allocator at an arbitrary
pointer. -/
theorem claim7_witness :
    ((freshAllocator 4).deallocate 999 8).1 =
      (groupsClaim 999 8 (freshAllocator 4).core.allocatorMemoryBlocks ||
       (deallocChain 999 8 (freshAllocator 4).nestedChain).1 ||
       systemFallbackApplies (freshAllocator 4).core.allocatorType) :=
  claim7_deallocate_fallback_chain (freshAllocator 4) 999 8

/-! ## Supporting lemmas about the slot tracker and fresh blocks -/

/-- Aligning offset zero yields offset zero. -/
theorem alignUp_zero (a : Nat) : alignUp 0 a = 0 := by
  unfold alignUp
  split
  · rfl
  · next h =>
    have : (0 + a - 1) / a = 0 := Nat.div_eq_of_lt (by omega)
    rw [this, Nat.zero_mul]

/-- Reserving from a fresh tracker of sufficient capacity succeeds at
offset zero, leaving `[offset size, capacity)` free and recording the
reservation. -/
theorem mkFresh_reserve (size align cap mt : Nat) (h : size ≤ cap) :
    (MemorySlots.mkFresh cap mt).reserve size align =
      (some 0, MemorySlots.mk cap mt
        (if 0 < cap - size then [(size, cap - size)] else []) [(0, size)]) := by
  unfold MemorySlots.reserve MemorySlots.mkFresh findFit
  rw [alignUp_zero]
  simp only [Nat.zero_add, Nat.add_zero]
  rw [if_pos h]
  simp [Nat.sub_self]

/-- Destruct a successful `MemoryBlock::allocate`. -/
theorem MemoryBlock.allocate_some_elim {b : MemoryBlock} {size p : Nat} {b' : MemoryBlock}
    (h : b.allocate size = (some p, b')) :
    ∃ off, p = b.memory + off ∧
      b.memorySlots.reserve size b.alignment = (some off, b'.memorySlots) ∧
      b'.memory = b.memory ∧ b'.alignment = b.alignment ∧
      b'.block_alignment = b.block_alignment := by
  unfold MemoryBlock.allocate at h
  split at h
  · next off s' hr =>
    simp only [Prod.mk.injEq, Option.some.injEq] at h
    obtain ⟨hp, hb⟩ := h
    exact ⟨off, hp.symm, by rw [hr, ← hb], by rw [← hb], by rw [← hb], by rw [← hb]⟩
  · simp at h

/-- Destruct a successful reserve. -/
theorem MemorySlots.reserve_some_elim {s : MemorySlots} {size align off : Nat}
    {s' : MemorySlots} (h : s.reserve size align = (some off, s')) :
    s'.reserved = s.reserved ++ [(off, size)] ∧ s'.capacity = s.capacity ∧
    s'.memoryTracking = s.memoryTracking := by
  unfold MemorySlots.reserve at h
  split at h
  · next o avail' hf =>
    simp only [Prod.mk.injEq, Option.some.injEq] at h
    obtain ⟨ho, hs⟩ := h
    subst ho
    rw [← hs]
    exact ⟨rfl, rfl, rfl⟩
  · simp at h

/-- A first-fit result stays within any bound containing all free runs. -/
theorem findFit_bound {size align : Nat} {avail avail' : List (Nat × Nat)} {off C : Nat}
    (h : findFit size align avail = some (off, avail'))
    (hb : ∀ r ∈ avail, r.1 + r.2 ≤ C) : off + size ≤ C := by
  induction avail generalizing avail' with
  | nil => simp [findFit] at h
  | cons r rest ih =>
    rcases r with ⟨o, len⟩
    unfold findFit at h
    split at h
    · next hfit =>
      simp only [Option.some.injEq, Prod.mk.injEq] at h
      have hr : o + len ≤ C := hb (o, len) (by simp)
      omega
    · next hfit =>
      split at h
      · next o' rest' hrec =>
        simp only [Option.some.injEq, Prod.mk.injEq] at h
        obtain ⟨ho, _⟩ := h
        subst ho
        exact ih hrec (fun r hr => hb r (List.mem_cons_of_mem _ hr))
      · simp at h

/-- `insertSorted` grows the owned collection by exactly one entry. -/
theorem insertSorted_length (k : Nat) (b : MemoryBlock) (l : List (Nat × MemoryBlock)) :
    (insertSorted k b l).length = l.length + 1 := by
  induction l with
  | nil => rfl
  | cons x rest ih =>
    unfold insertSorted
    split
    · simp
    · simp [ih]

/-! ## C4: a total miss creates exactly one right-sized block -/

/-- C4: group allocation never returns null (when every owned block
misses, the fresh block — sized `max(size, blockSize)`, with the
modelled system allocation succeeding — serves the request); and on a
total miss exactly one new block of capacity `max(size, blockSize)` is
created, inserted keyed by its base address, cached as the latest
block, and the returned pointer is its base with `[0, size)` reserved
in its tracker. -/
theorem claim4_total_miss_creates_one_block :
    (∀ (mt addr : Nat) (g : MemoryBlocks) (size : Nat),
       (MemoryBlocks.allocate mt addr g size).1.isSome = true) ∧
    (∀ (mt addr : Nat) (g : MemoryBlocks) (size : Nat),
       g.tryLatest size = none →
       tryOthers g.latestMemoryBlock size g.memoryBlocks.reverse = none →
       ∃ b,
         (MemoryBlocks.allocate mt addr g size).1 = some (newBlockBase addr g.alignment) ∧
         (MemoryBlocks.allocate mt addr g size).2.1 =
           newBlockBase addr g.alignment + max size g.blockSize ∧
         (MemoryBlocks.allocate mt addr g size).2.2.memoryBlocks =
           insertSorted (newBlockBase addr g.alignment) b g.memoryBlocks ∧
         (MemoryBlocks.allocate mt addr g size).2.2.latestMemoryBlock =
           some (newBlockBase addr g.alignment) ∧
         b.memory = newBlockBase addr g.alignment ∧
         b.capacity = max size g.blockSize ∧
         b.memorySlots.reserved = [(0, size)] ∧
         (MemoryBlocks.allocate mt addr g size).2.2.memoryBlocks.length =
           g.memoryBlocks.length + 1) := by
  have hfresh : ∀ (mt addr : Nat) (g : MemoryBlocks) (size : Nat),
      (MemoryBlock.mkNew (newBlockBase addr g.alignment) (max size g.blockSize)
        mt g.alignment).allocate size =
      (some (newBlockBase addr g.alignment),
       MemoryBlock.mk (newBlockBase addr g.alignment) g.alignment
         (max (max g.alignment maxAlignT) 16)
         (MemorySlots.mk (max size g.blockSize) mt
           (if 0 < max size g.blockSize - size then
              [(size, max size g.blockSize - size)] else [])
           [(0, size)])) := by
    intro mt addr g size
    unfold MemoryBlock.allocate
    simp only [MemoryBlock.mkNew]
    rw [mkFresh_reserve size g.alignment (max size g.blockSize) mt (Nat.le_max_left _ _)]
    rfl
  constructor
  · intro mt addr g size
    unfold MemoryBlocks.allocate
    split
    · simp
    · split
      · simp
      · rw [hfresh mt addr g size]
        rfl
  · intro mt addr g size hL hO
    refine ⟨MemoryBlock.mk (newBlockBase addr g.alignment) g.alignment
      (max (max g.alignment maxAlignT) 16)
      (MemorySlots.mk (max size g.blockSize) mt
        (if 0 < max size g.blockSize - size then
           [(size, max size g.blockSize - size)] else [])
        [(0, size)]), ?_⟩
    unfold MemoryBlocks.allocate
    rw [hL, hO, hfresh mt addr g size]
    exact ⟨rfl, rfl, rfl, rfl, rfl, rfl, rfl, insertSorted_length _ _ _⟩

/-- C4 witness: a 100-byte request on a fresh group with 64-byte default
block size creates one block sized 100. -/
theorem claim4_witness :
    (MemoryBlocks.allocate 0 4096 (MemoryBlocks.mkNew "X" 64 4) 100).2.2.memoryBlocks.length =
      (MemoryBlocks.mkNew "X" 64 4).memoryBlocks.length + 1 := by
  obtain ⟨b, _, _, _, _, _, _, _, hlen⟩ :=
    claim4_total_miss_creates_one_block.2 0 4096 (MemoryBlocks.mkNew "X" 64 4) 100 rfl rfl
  exact hlen

/-! ## Supporting lemmas for compaction -/

/-- A key is found by `lookupBlock` iff it heads some stored pair. -/
theorem lookupBlock_isSome_iff (k : Nat) (l : List (Nat × MemoryBlock)) :
    (lookupBlock k l).isSome = true ↔ ∃ b, (k, b) ∈ l := by
  induction l with
  | nil => simp [lookupBlock]
  | cons x rest ih =>
    rcases x with ⟨k1, b1⟩
    unfold lookupBlock
    by_cases hk : k1 = k
    · subst hk
      simp
    · rw [if_neg hk]
      simp only [List.mem_cons, Prod.mk.injEq]
      constructor
      · intro h
        obtain ⟨b, hb⟩ := ih.mp h
        exact ⟨b, Or.inr hb⟩
      · intro ⟨b, hb⟩
        rcases hb with hb | hb
        · exact absurd hb.1.symm hk
        · exact ih.mpr ⟨b, hb⟩

/-- Summing a mapped value over a partition by `p` recovers the total. -/
theorem sum_map_filter_split (l : List (Nat × MemoryBlock)) (p : Nat × MemoryBlock → Bool)
    (f : Nat × MemoryBlock → Nat) :
    (((l.filter (fun x => !p x)).map f).sum + ((l.filter p).map f).sum) = (l.map f).sum := by
  induction l with
  | nil => rfl
  | cons x rest ih =>
    by_cases hx : p x
    · simp only [List.filter_cons, hx, Bool.not_true, Bool.false_eq_true, if_false,
        if_true, List.map_cons, List.sum_cons]
      omega
    · simp only [Bool.not_eq_true] at hx
      simp only [List.filter_cons, hx, Bool.not_false, Bool.false_eq_true, if_false,
        if_true, List.map_cons, List.sum_cons]
      omega

/-- Full characterisation of the block-removal loop of
`deleteEmptyMemoryBlocks` (lines 683-701): it keeps exactly the
non-empty blocks, sums the capacities of the removed ones, and nulls
the latest-cache as soon as a removed block's key matches it. -/
theorem deleteEmptyLoop_spec (l : List (Nat × MemoryBlock)) (latest : Option Nat) :
    deleteEmptyLoop latest l =
      (((l.filter (fun kb => kb.2.memorySlots.isEmpty)).map
          (fun kb => kb.2.memorySlots.totalMemorySize)).sum,
       (if latestRemovedIn latest l then none else latest),
       l.filter (fun kb => !kb.2.memorySlots.isEmpty)) := by
  induction l generalizing latest with
  | nil => simp [deleteEmptyLoop, latestRemovedIn]
  | cons x rest ih =>
    rcases x with ⟨k, b⟩
    by_cases hb : b.memorySlots.isEmpty
    · simp only [deleteEmptyLoop, hb, if_true]
      rw [ih (if latest = some k then none else latest)]
      simp only [Prod.mk.injEq]
      refine ⟨?_, ?_, ?_⟩
      · simp [List.filter_cons, hb]
      · by_cases hl : latest = some k
        · rw [if_pos hl]
          have hr : latestRemovedIn latest ((k, b) :: rest) = true := by
            simp [latestRemovedIn, List.any_cons, hl, hb]
          rw [hr]
          simp [ite_self]
        · rw [if_neg hl]
          have hr : latestRemovedIn latest ((k, b) :: rest) = latestRemovedIn latest rest := by
            simp [latestRemovedIn, List.any_cons, hl]
          rw [hr]
      · simp [List.filter_cons, hb]
    · simp only [Bool.not_eq_true] at hb
      simp only [deleteEmptyLoop, hb, Bool.false_eq_true, if_false]
      rw [ih latest]
      simp only [Prod.mk.injEq]
      refine ⟨?_, ?_, ?_⟩
      · simp [List.filter_cons, hb]
      · have hr : latestRemovedIn latest ((k, b) :: rest) = latestRemovedIn latest rest := by
          simp [latestRemovedIn, List.any_cons, hb]
        rw [hr]
      · simp [List.filter_cons, hb]

/-! ## C5: compaction removes exactly the empty blocks -/

/-- C5: `deleteEmptyMemoryBlocks` keeps exactly the blocks whose slot
tracker is non-empty, returns the sum of the removed blocks'
capacities (equivalently, `totalMemorySize()` drops by exactly that
sum), nulls the cached latest-block reference whenever a removed block
was the one it named, and — provided the cache named an owned block
beforehand — never leaves it dangling. -/
theorem claim5_deleteEmpty_removes_empty_blocks (g : MemoryBlocks)
    (hlat : ∀ k, g.latestMemoryBlock = some k → (lookupBlock k g.memoryBlocks).isSome = true) :
    (g.deleteEmptyMemoryBlocks).2.memoryBlocks =
        g.memoryBlocks.filter (fun kb => !kb.2.memorySlots.isEmpty) ∧
    (g.deleteEmptyMemoryBlocks).1 =
        ((g.memoryBlocks.filter (fun kb => kb.2.memorySlots.isEmpty)).map
          (fun kb => kb.2.memorySlots.totalMemorySize)).sum ∧
    (g.deleteEmptyMemoryBlocks).2.totalMemorySize + (g.deleteEmptyMemoryBlocks).1 =
        g.totalMemorySize ∧
    (g.deleteEmptyMemoryBlocks).2.latestMemoryBlock =
        (if latestRemovedIn g.latestMemoryBlock g.memoryBlocks
         then none else g.latestMemoryBlock) ∧
    (∀ k, (g.deleteEmptyMemoryBlocks).2.latestMemoryBlock = some k →
        (lookupBlock k (g.deleteEmptyMemoryBlocks).2.memoryBlocks).isSome = true) := by
  have hspec := deleteEmptyLoop_spec g.memoryBlocks g.latestMemoryBlock
  have h2 : (g.deleteEmptyMemoryBlocks).2.memoryBlocks =
      g.memoryBlocks.filter (fun kb => !kb.2.memorySlots.isEmpty) := by
    unfold MemoryBlocks.deleteEmptyMemoryBlocks
    rw [hspec]
  have h1 : (g.deleteEmptyMemoryBlocks).1 =
      ((g.memoryBlocks.filter (fun kb => kb.2.memorySlots.isEmpty)).map
        (fun kb => kb.2.memorySlots.totalMemorySize)).sum := by
    unfold MemoryBlocks.deleteEmptyMemoryBlocks
    rw [hspec]
  have h4 : (g.deleteEmptyMemoryBlocks).2.latestMemoryBlock =
      (if latestRemovedIn g.latestMemoryBlock g.memoryBlocks
       then none else g.latestMemoryBlock) := by
    unfold MemoryBlocks.deleteEmptyMemoryBlocks
    rw [hspec]
  refine ⟨h2, h1, ?_, h4, ?_⟩
  · rw [h1]
    unfold MemoryBlocks.totalMemorySize
    rw [h2]
    exact sum_map_filter_split g.memoryBlocks _ _
  · intro k hk
    rw [h4] at hk
    rw [h2]
    split at hk
    · exact absurd hk (by simp)
    · next hany =>
      have hk0 : g.latestMemoryBlock = some k := hk
      obtain ⟨b, hb⟩ := (lookupBlock_isSome_iff k g.memoryBlocks).mp (hlat k hk0)
      rw [lookupBlock_isSome_iff]
      refine ⟨b, List.mem_filter.mpr ⟨hb, ?_⟩⟩
      by_cases hemp : b.memorySlots.isEmpty
      · exfalso
        apply hany
        unfold latestRemovedIn
        refine List.any_eq_true.mpr ⟨(k, b), hb, ?_⟩
        simp [hk0, hemp]
      · simp [hemp]

/-- C5 witness: a group whose single block (fresh, hence empty) is also
the cached latest: compaction removes it, frees its 64 bytes, and nulls
the cache. -/
theorem claim5_witness :
    ((MemoryBlocks.mk "X" 64 4 [(4096, MemoryBlock.mkNew 4096 64 0 4)] (some 4096)).deleteEmptyMemoryBlocks).2.latestMemoryBlock = none := by
  obtain ⟨_, _, _, h4, _⟩ := claim5_deleteEmpty_removes_empty_blocks
    (MemoryBlocks.mk "X" 64 4 [(4096, MemoryBlock.mkNew 4096 64 0 4)] (some 4096))
    (by decide)
  rw [h4]
  decide

/-! ## Erasure commutes with every operation

The memory-tracking flags are read only to decide logging, so every
operation commutes with `eraseMT`; outcomes therefore depend only on the
erased state. -/

@[simp] theorem MemorySlots.eraseMT_capacity (s : MemorySlots) :
    s.eraseMT.capacity = s.capacity := rfl

@[simp] theorem MemorySlots.eraseMT_available (s : MemorySlots) :
    s.eraseMT.available = s.available := rfl

@[simp] theorem MemorySlots.eraseMT_reserved (s : MemorySlots) :
    s.eraseMT.reserved = s.reserved := rfl

@[simp] theorem MemorySlots.eraseMT_totalMemorySize (s : MemorySlots) :
    s.eraseMT.totalMemorySize = s.totalMemorySize := rfl

@[simp] theorem MemoryBlock.eraseMT_memory (b : MemoryBlock) :
    b.eraseMT.memory = b.memory := rfl

@[simp] theorem MemoryBlock.eraseMT_alignment (b : MemoryBlock) :
    b.eraseMT.alignment = b.alignment := rfl

@[simp] theorem MemoryBlock.eraseMT_block_alignment (b : MemoryBlock) :
    b.eraseMT.block_alignment = b.block_alignment := rfl

@[simp] theorem MemoryBlock.eraseMT_memorySlots (b : MemoryBlock) :
    b.eraseMT.memorySlots = b.memorySlots.eraseMT := rfl

@[simp] theorem MemoryBlocks.eraseMT_name (g : MemoryBlocks) :
    g.eraseMT.name = g.name := rfl

@[simp] theorem MemoryBlocks.eraseMT_blockSize (g : MemoryBlocks) :
    g.eraseMT.blockSize = g.blockSize := rfl

@[simp] theorem MemoryBlocks.eraseMT_groupAlignment (g : MemoryBlocks) :
    g.eraseMT.alignment = g.alignment := rfl

@[simp] theorem MemoryBlocks.eraseMT_memoryBlocks (g : MemoryBlocks) :
    g.eraseMT.memoryBlocks = g.memoryBlocks.map (fun kb => (kb.1, kb.2.eraseMT)) := rfl

@[simp] theorem MemoryBlocks.eraseMT_latestMemoryBlock (g : MemoryBlocks) :
    g.eraseMT.latestMemoryBlock = g.latestMemoryBlock := rfl

theorem reserve_eraseMT (s : MemorySlots) (size align : Nat) :
    (s.eraseMT).reserve size align =
      ((s.reserve size align).1, (s.reserve size align).2.eraseMT) := by
  unfold MemorySlots.reserve MemorySlots.eraseMT
  rcases hf : findFit size align s.available with _ | ⟨off, avail'⟩ <;> simp [hf]

theorem release_eraseMT (s : MemorySlots) (off size : Nat) :
    (s.eraseMT).release off size =
      ((s.release off size).1, (s.release off size).2.eraseMT) := by
  unfold MemorySlots.release MemorySlots.eraseMT
  by_cases hc : (off, size) ∈ s.reserved <;> simp [hc]

theorem block_allocate_eraseMT (b : MemoryBlock) (size : Nat) :
    (b.eraseMT).allocate size = ((b.allocate size).1, (b.allocate size).2.eraseMT) := by
  have h2 := reserve_eraseMT b.memorySlots size b.alignment
  rcases hr : b.memorySlots.reserve size b.alignment with ⟨po, s2⟩
  rw [hr] at h2
  rcases po with _ | p <;>
    simp [MemoryBlock.allocate, MemoryBlock.eraseMT, hr, h2]

theorem block_deallocate_eraseMT (b : MemoryBlock) (ptr size : Nat) :
    (b.eraseMT).deallocate ptr size =
      ((b.deallocate ptr size).1, (b.deallocate ptr size).2.eraseMT) := by
  have h2 := release_eraseMT b.memorySlots (ptr - b.memory) size
  rcases hr : b.memorySlots.release (ptr - b.memory) size with ⟨ok, s2⟩
  rw [hr] at h2
  by_cases h1 : b.memory ≤ ptr
  · by_cases hin : ptr - b.memory < b.memorySlots.totalMemorySize
    · simp only [MemoryBlock.deallocate, MemoryBlock.eraseMT_memory,
        MemoryBlock.eraseMT_memorySlots, MemorySlots.eraseMT_totalMemorySize,
        h1, hin, if_pos, if_true, h2, hr]
      simp [MemoryBlock.eraseMT]
    · simp only [MemoryBlock.deallocate, MemoryBlock.eraseMT_memory,
        MemoryBlock.eraseMT_memorySlots, MemorySlots.eraseMT_totalMemorySize]
      simp [h1, hin]
  · simp only [MemoryBlock.deallocate, MemoryBlock.eraseMT_memory]
    simp [h1]

theorem lookupBlock_eraseMT (k : Nat) (l : List (Nat × MemoryBlock)) :
    lookupBlock k (l.map (fun kb => (kb.1, kb.2.eraseMT))) =
      (lookupBlock k l).map MemoryBlock.eraseMT := by
  induction l with
  | nil => rfl
  | cons x rest ih =>
    rcases x with ⟨k1, b1⟩
    by_cases hk : k1 = k <;> simp [lookupBlock, hk, ih]

theorem updateBlock_eraseMT (k : Nat) (b : MemoryBlock) (l : List (Nat × MemoryBlock)) :
    updateBlock k b.eraseMT (l.map (fun kb => (kb.1, kb.2.eraseMT))) =
      (updateBlock k b l).map (fun kb => (kb.1, kb.2.eraseMT)) := by
  induction l with
  | nil => rfl
  | cons x rest ih =>
    rcases x with ⟨k1, b1⟩
    by_cases hk : k1 = k <;> simp [updateBlock, hk, ih]

theorem insertSorted_eraseMT (k : Nat) (b : MemoryBlock) (l : List (Nat × MemoryBlock)) :
    insertSorted k b.eraseMT (l.map (fun kb => (kb.1, kb.2.eraseMT))) =
      (insertSorted k b l).map (fun kb => (kb.1, kb.2.eraseMT)) := by
  induction l with
  | nil => rfl
  | cons x rest ih =>
    rcases x with ⟨k1, b1⟩
    by_cases hk : k < k1 <;> simp [insertSorted, hk, ih]

theorem tryLatest_eraseMT (g : MemoryBlocks) (size : Nat) :
    (g.eraseMT).tryLatest size =
      (g.tryLatest size).map (fun pg => (pg.1, pg.2.eraseMT)) := by
  rcases hlt : g.latestMemoryBlock with _ | k
  · simp [MemoryBlocks.tryLatest, hlt]
  · rcases hl : lookupBlock k g.memoryBlocks with _ | b
    · simp [MemoryBlocks.tryLatest, hlt, lookupBlock_eraseMT, hl]
    · have hb := block_allocate_eraseMT b size
      rcases ha : b.allocate size with ⟨po, b'⟩
      rw [ha] at hb
      rcases po with _ | p
      · simp [MemoryBlocks.tryLatest, hlt, lookupBlock_eraseMT, hl, hb, ha]
      · simp [MemoryBlocks.tryLatest, hlt, lookupBlock_eraseMT, hl, hb, ha,
          MemoryBlocks.eraseMT, updateBlock_eraseMT]

theorem tryOthers_eraseMT (skip : Option Nat) (size : Nat) (l : List (Nat × MemoryBlock)) :
    tryOthers skip size (l.map (fun kb => (kb.1, kb.2.eraseMT))) =
      (tryOthers skip size l).map
        (fun pr => (pr.1, pr.2.map (fun kb => (kb.1, kb.2.eraseMT)))) := by
  induction l with
  | nil => rfl
  | cons x rest ih =>
    rcases x with ⟨k, b⟩
    by_cases hk : some k = skip
    · simp only [List.map_cons, tryOthers, hk, if_pos rfl, ih]
      rcases tryOthers skip size rest with _ | ⟨p, rest'⟩ <;> simp
    · simp only [List.map_cons, tryOthers, hk, if_neg hk, ih]
      have hb := block_allocate_eraseMT b size
      rcases ha : b.allocate size with ⟨po, b'⟩
      rw [ha] at hb
      rcases po with _ | p
      · simp only [hb]
        rcases tryOthers skip size rest with _ | ⟨p, rest'⟩ <;> simp [ih]
      · simp [hb]

theorem group_allocate_eraseMT (mt nextAddr : Nat) (g : MemoryBlocks) (size : Nat) :
    MemoryBlocks.allocate 0 nextAddr g.eraseMT size =
      ((MemoryBlocks.allocate mt nextAddr g size).1,
       (MemoryBlocks.allocate mt nextAddr g size).2.1,
       (MemoryBlocks.allocate mt nextAddr g size).2.2.eraseMT) := by
  unfold MemoryBlocks.allocate
  have hL := tryLatest_eraseMT g size
  rcases hl : g.tryLatest size with _ | ⟨p, g'⟩
  · rw [hl] at hL
    simp only [Option.map_none'] at hL
    rw [hL]
    have hO := tryOthers_eraseMT g.latestMemoryBlock size g.memoryBlocks.reverse
    have hrev : (g.eraseMT).memoryBlocks.reverse =
        g.memoryBlocks.reverse.map (fun kb => (kb.1, kb.2.eraseMT)) := by
      simp [MemoryBlocks.eraseMT, List.map_reverse]
    have hskip : (g.eraseMT).latestMemoryBlock = g.latestMemoryBlock := rfl
    rcases ho : tryOthers g.latestMemoryBlock size g.memoryBlocks.reverse
      with _ | ⟨p, rev'⟩
    · rw [ho] at hO
      simp only [Option.map_none'] at hO
      rw [hskip, hrev, hO]
      -- both sides take the fresh-block path
      have halign : (g.eraseMT).alignment = g.alignment := rfl
      have hbs : (g.eraseMT).blockSize = g.blockSize := rfl
      have hblocks : (g.eraseMT).memoryBlocks =
          g.memoryBlocks.map (fun kb => (kb.1, kb.2.eraseMT)) := rfl
      have hmk : (MemoryBlock.mkNew (newBlockBase nextAddr g.alignment)
          (max size g.blockSize) mt g.alignment).eraseMT =
          MemoryBlock.mkNew (newBlockBase nextAddr g.alignment)
            (max size g.blockSize) 0 g.alignment := rfl
      have hba := block_allocate_eraseMT
        (MemoryBlock.mkNew (newBlockBase nextAddr g.alignment)
          (max size g.blockSize) mt g.alignment) size
      rcases hfa : (MemoryBlock.mkNew (newBlockBase nextAddr g.alignment)
          (max size g.blockSize) mt g.alignment).allocate size with ⟨po, b'⟩
      rw [hfa] at hba
      rw [hmk] at hba
      rw [halign, hbs, hba]
      simp [MemoryBlocks.eraseMT, insertSorted_eraseMT, hblocks]
    · rw [ho] at hO
      simp only [Option.map_some'] at hO
      rw [hskip, hrev, hO]
      simp [MemoryBlocks.eraseMT, List.map_reverse]
  · rw [hl] at hL
    simp only [Option.map_some'] at hL
    rw [hL]

theorem map_set_pair (l : List (Nat × MemoryBlock)) (i k : Nat) (b : MemoryBlock) :
    (l.map (fun kb => (kb.1, kb.2.eraseMT))).set i (k, b.eraseMT) =
      (l.set i (k, b)).map (fun kb => (kb.1, kb.2.eraseMT)) := by
  induction l generalizing i with
  | nil => rfl
  | cons x rest ih =>
    cases i with
    | zero => rfl
    | succ j =>
      simp only [List.map_cons, List.set_cons_succ, ih]

theorem findFirstGreater_eraseMT (p : Nat) (l : List (Nat × MemoryBlock)) :
    findFirstGreater p (l.map (fun kb => (kb.1, kb.2.eraseMT))) = findFirstGreater p l := by
  induction l with
  | nil => rfl
  | cons x rest ih =>
    simp only [List.map_cons, findFirstGreater, ih]

theorem upperBoundIdx_eraseMT (p : Nat) (l : List (Nat × MemoryBlock)) :
    upperBoundIdx p (l.map (fun kb => (kb.1, kb.2.eraseMT))) = upperBoundIdx p l := by
  unfold upperBoundIdx
  rw [findFirstGreater_eraseMT]
  simp

theorem group_deallocate_eraseMT (g : MemoryBlocks) (ptr size : Nat) :
    (g.eraseMT).deallocate ptr size =
      ((g.deallocate ptr size).1, (g.deallocate ptr size).2.eraseMT) := by
  rcases hget : g.memoryBlocks.get? (upperBoundIdx ptr g.memoryBlocks) with _ | kb
  · simp only [MemoryBlocks.deallocate, MemoryBlocks.eraseMT_memoryBlocks,
      upperBoundIdx_eraseMT, List.get?_map, hget, Option.map_none']
  · rcases kb with ⟨k, b⟩
    have hb := block_deallocate_eraseMT b ptr size
    rcases hd : b.deallocate ptr size with ⟨r, b2⟩
    rw [hd] at hb
    cases r
    · simp only [MemoryBlocks.deallocate, MemoryBlocks.eraseMT_memoryBlocks,
        upperBoundIdx_eraseMT, List.get?_map, hget, Option.map_some', hb, hd]
    · simp only [MemoryBlocks.deallocate, MemoryBlocks.eraseMT_memoryBlocks,
        upperBoundIdx_eraseMT, List.get?_map, hget, Option.map_some', hb, hd]
      simp only [MemoryBlocks.eraseMT, map_set_pair]

theorem deallocGroups_eraseMT (ptr size : Nat) (L : List (Option MemoryBlocks)) :
    deallocGroups ptr size (L.map (Option.map MemoryBlocks.eraseMT)) =
      ((deallocGroups ptr size L).1,
       (deallocGroups ptr size L).2.map (Option.map MemoryBlocks.eraseMT)) := by
  induction L with
  | nil => rfl
  | cons og rest ih =>
    cases og with
    | none => simp [deallocGroups, ih]
    | some g =>
      have hg := group_deallocate_eraseMT g ptr size
      rcases hd : g.deallocate ptr size with ⟨r, g2⟩
      rw [hd] at hg
      cases r
      · simp [deallocGroups, hg, hd, ih]
      · simp [deallocGroups, hg, hd]

@[simp] theorem AllocatorCore.eraseMT_default_alignment (s : AllocatorCore) :
    s.eraseMT.default_alignment = s.default_alignment := rfl

@[simp] theorem AllocatorCore.eraseMT_allocatorType (s : AllocatorCore) :
    s.eraseMT.allocatorType = s.allocatorType := rfl

@[simp] theorem AllocatorCore.eraseMT_memoryTracking (s : AllocatorCore) :
    s.eraseMT.memoryTracking = 0 := rfl

@[simp] theorem AllocatorCore.eraseMT_nextAddress (s : AllocatorCore) :
    s.eraseMT.nextAddress = s.nextAddress := rfl

@[simp] theorem AllocatorCore.eraseMT_allocatorMemoryBlocks (s : AllocatorCore) :
    s.eraseMT.allocatorMemoryBlocks =
      s.allocatorMemoryBlocks.map (Option.map MemoryBlocks.eraseMT) := rfl

theorem map_set_group (l : List (Option MemoryBlocks)) (i : Nat) (og : Option MemoryBlocks) :
    (l.map (Option.map MemoryBlocks.eraseMT)).set i (og.map MemoryBlocks.eraseMT) =
      (l.set i og).map (Option.map MemoryBlocks.eraseMT) := by
  induction l generalizing i with
  | nil => rfl
  | cons x rest ih =>
    cases i with
    | zero => rfl
    | succ j =>
      simp only [List.map_cons, List.set_cons_succ, ih]

theorem map_append_replicate_set (L : List (Option MemoryBlocks)) (n aff : Nat)
    (g : MemoryBlocks) :
    (L.map (Option.map MemoryBlocks.eraseMT) ++
        List.replicate n (none : Option MemoryBlocks)).set aff (some g.eraseMT) =
      ((L ++ List.replicate n (none : Option MemoryBlocks)).set aff
        (some g)).map (Option.map MemoryBlocks.eraseMT) := by
  have h1 : (L ++ List.replicate n (none : Option MemoryBlocks)).map
      (Option.map MemoryBlocks.eraseMT) =
      L.map (Option.map MemoryBlocks.eraseMT) ++
        List.replicate n (none : Option MemoryBlocks) := by
    rw [List.map_append, List.map_replicate]
    rfl
  rw [← h1,
    show (some g.eraseMT : Option MemoryBlocks) = (some g).map MemoryBlocks.eraseMT from rfl,
    map_set_group]

theorem ensure_eraseMT (s : AllocatorCore) (aff : Nat) :
    (s.eraseMT).ensureMemoryBlocks aff = (s.ensureMemoryBlocks aff).eraseMT := by
  unfold AllocatorCore.ensureMemoryBlocks
  by_cases hc : aff > s.allocatorMemoryBlocks.length
  · have hc2 : aff > (s.eraseMT).allocatorMemoryBlocks.length := by
      simpa using hc
    rw [if_pos hc2, if_pos hc]
    simp only [AllocatorCore.eraseMT, AllocatorCore.mk.injEq, List.length_map,
      true_and, and_true]
    exact map_append_replicate_set s.allocatorMemoryBlocks
      (aff + 1 - s.allocatorMemoryBlocks.length) aff
      (MemoryBlocks.mkNew ("MemoryBlocks_" ++ toString aff) (1024 * 1024)
        s.default_alignment)
  · have hc2 : ¬ aff > (s.eraseMT).allocatorMemoryBlocks.length := by
      simpa using hc
    rw [if_neg hc2, if_neg hc]

theorem core_allocate_eraseMT (s : AllocatorCore) (size aff : Nat) :
    (s.eraseMT).allocate size aff =
      (match s.allocate size aff with
       | .ok p c' => .ok p c'.eraseMT
       | .outOfBounds => .outOfBounds
       | .diverge => .diverge) := by
  simp only [AllocatorCore.allocate, ensure_eraseMT]
  rcases hg : (s.ensureMemoryBlocks aff).allocatorMemoryBlocks.get? aff with _ | og
  · simp only [AllocatorCore.eraseMT_allocatorMemoryBlocks, List.get?_map, hg,
      Option.map_none']
  · rcases og with _ | g
    · simp only [AllocatorCore.eraseMT_allocatorMemoryBlocks, List.get?_map, hg,
        Option.map_some', Option.map_none']
    · have hgc := group_allocate_eraseMT (s.ensureMemoryBlocks aff).memoryTracking
        (s.ensureMemoryBlocks aff).nextAddress g size
      rcases hm : MemoryBlocks.allocate (s.ensureMemoryBlocks aff).memoryTracking
          (s.ensureMemoryBlocks aff).nextAddress g size with ⟨po, addr', g'⟩
      rw [hm] at hgc
      have hset := map_set_group (s.ensureMemoryBlocks aff).allocatorMemoryBlocks
        aff (some g')
      simp only [Option.map_some'] at hset
      rcases po with _ | p
      · simp only [AllocatorCore.eraseMT_allocatorMemoryBlocks, List.get?_map, hg,
          Option.map_some', AllocatorCore.eraseMT_memoryTracking,
          AllocatorCore.eraseMT_nextAddress, hgc, hm]
      · simp only [AllocatorCore.eraseMT_allocatorMemoryBlocks, List.get?_map, hg,
          Option.map_some', AllocatorCore.eraseMT_memoryTracking,
          AllocatorCore.eraseMT_nextAddress, hgc, hm]
        simp only [AllocatorCore.eraseMT, hset]

theorem deallocChain_eraseMT (ptr size : Nat) (L : List AllocatorCore) :
    deallocChain ptr size (L.map AllocatorCore.eraseMT) =
      ((deallocChain ptr size L).1,
       (deallocChain ptr size L).2.map AllocatorCore.eraseMT) := by
  induction L with
  | nil => rfl
  | cons c rest ih =>
    have hgrp := deallocGroups_eraseMT ptr size c.allocatorMemoryBlocks
    rcases hg : deallocGroups ptr size c.allocatorMemoryBlocks with ⟨bg, groups'⟩
    rw [hg] at hgrp
    cases bg
    · rcases hr : deallocChain ptr size rest with ⟨br, rest'⟩
      rw [hr] at ih
      cases br
      · cases htype : c.allocatorType <;>
          simp [deallocChain, hgrp, hg, ih, hr, htype, AllocatorCore.eraseMT]
      · simp [deallocChain, hgrp, hg, ih, hr, AllocatorCore.eraseMT]
    · simp [deallocChain, hgrp, hg, AllocatorCore.eraseMT]

@[simp] theorem Allocator.eraseMT_core (s : Allocator) :
    s.eraseMT.core = s.core.eraseMT := rfl

@[simp] theorem Allocator.eraseMT_nestedChain (s : Allocator) :
    s.eraseMT.nestedChain = s.nestedChain.map AllocatorCore.eraseMT := rfl

theorem allocator_allocate_eraseMT (s : Allocator) (size aff : Nat) :
    (s.eraseMT).allocate size aff =
      (match s.allocate size aff with
       | .ok p s' => .ok p s'.eraseMT
       | .outOfBounds => .outOfBounds
       | .diverge => .diverge) := by
  unfold Allocator.allocate
  have hc := core_allocate_eraseMT s.core size aff
  cases ha : s.core.allocate size aff with
  | ok p c' =>
    rw [ha] at hc
    simp [hc, Allocator.eraseMT]
  | outOfBounds =>
    rw [ha] at hc
    simp [hc]
  | diverge =>
    rw [ha] at hc
    simp [hc]

theorem allocator_deallocate_eraseMT (s : Allocator) (ptr size : Nat) :
    (s.eraseMT).deallocate ptr size =
      ((s.deallocate ptr size).1, (s.deallocate ptr size).2.eraseMT) := by
  unfold Allocator.deallocate
  have hch := deallocChain_eraseMT ptr size (s.core :: s.nestedChain)
  rcases hd : deallocChain ptr size (s.core :: s.nestedChain) with ⟨r, L'⟩
  rw [hd] at hch
  have hcons : (s.eraseMT).core :: (s.eraseMT).nestedChain =
      (s.core :: s.nestedChain).map AllocatorCore.eraseMT := by
    simp
  rw [hcons, hch]
  rcases L' with _ | ⟨c', rest'⟩
  · simp [Allocator.eraseMT]
  · simp [Allocator.eraseMT]

theorem runCalls_eraseMT (calls : List AllocCall) (s : Allocator) :
    runCalls calls s.eraseMT = runCalls calls s := by
  induction calls generalizing s with
  | nil => rfl
  | cons c rest ih =>
    cases c with
    | alloc size aff =>
      have hc := allocator_allocate_eraseMT s size aff
      cases ha : s.allocate size aff with
      | ok p s' =>
        rw [ha] at hc
        simp [runCalls, hc, ha, ih]
      | outOfBounds =>
        rw [ha] at hc
        simp [runCalls, hc, ha]
      | diverge =>
        rw [ha] at hc
        simp [runCalls, hc, ha]
    | dealloc ptr size =>
      have hc := allocator_deallocate_eraseMT s ptr size
      rcases hd : s.deallocate ptr size with ⟨r, s'⟩
      rw [hd] at hc
      simp [runCalls, hc, hd, ih]

theorem setTracking_then_erase (b : MemoryBlock) (mt : Nat) :
    (b.setTracking mt).eraseMT = b.eraseMT := rfl

theorem core_setMT_eraseMT (c : AllocatorCore) (mt : Nat) :
    (c.setMemoryTracking mt).eraseMT = c.eraseMT := by
  unfold AllocatorCore.setMemoryTracking AllocatorCore.eraseMT
  simp only [List.map_map]
  congr 1
  apply List.map_congr_left
  intro og _
  cases og with
  | none => rfl
  | some g =>
    simp only [Function.comp, Option.map_some']
    congr 1
    unfold MemoryBlocks.eraseMT
    simp only [List.map_map]
    congr 1

theorem setMT_eraseMT (s : Allocator) (mt : Nat) :
    (s.setMemoryTracking mt).eraseMT = s.eraseMT := by
  unfold Allocator.setMemoryTracking Allocator.eraseMT
  simp [core_setMT_eraseMT]

/-! ## C8: memory tracking is purely observational -/

/-- C8: two runs of the same allocate/deallocate call sequence, started
from the same allocator but with different `setMemoryTracking` settings,
produce identical observable outcomes (the pointers returned by
`allocate`, the booleans returned by `deallocate`, and the same
out-of-bounds/divergence behaviour). -/
theorem claim8_memory_tracking_observational (calls : List AllocCall) (s : Allocator)
    (mt1 mt2 : Nat) :
    runCalls calls (s.setMemoryTracking mt1) =
      runCalls calls (s.setMemoryTracking mt2) := by
  rw [← runCalls_eraseMT calls (s.setMemoryTracking mt1),
    ← runCalls_eraseMT calls (s.setMemoryTracking mt2),
    setMT_eraseMT, setMT_eraseMT]

/-- C8 witness: a concrete two-call sequence behaves identically with
tracking off (0) and report-actions (1). -/
theorem claim8_witness :
    runCalls [AllocCall.alloc 16 0, AllocCall.dealloc 4096 16]
        ((freshAllocator 4).setMemoryTracking 0) =
      runCalls [AllocCall.alloc 16 0, AllocCall.dealloc 4096 16]
        ((freshAllocator 4).setMemoryTracking 1) :=
  claim8_memory_tracking_observational
    [AllocCall.alloc 16 0, AllocCall.dealloc 4096 16] (freshAllocator 4) 0 1

/-! ## Supporting lemmas for the round-trip property -/

/-- Erasing one occurrence of a member removes exactly its size from the
reserved total. -/
theorem sum_snd_erase {l : List (Nat × Nat)} {x : Nat × Nat} (h : x ∈ l) :
    ((l.erase x).map Prod.snd).sum + x.2 = (l.map Prod.snd).sum := by
  induction l with
  | nil => cases h
  | cons y rest ih =>
    by_cases hxy : y = x
    · subst hxy
      simp only [List.erase_cons_head, List.map_cons, List.sum_cons]
      omega
    · have hbeq : (y == x) = false := by
        simp [hxy]
      have hmem : x ∈ rest := by
        rcases List.mem_cons.mp h with h1 | h1
        · exact absurd h1.symm hxy
        · exact h1
      simp only [List.erase_cons, hbeq, Bool.false_eq_true, if_false, List.map_cons,
        List.sum_cons]
      have := ih hmem
      omega

/-- `release` of an actually reserved range succeeds and gives back
exactly its size. -/
theorem release_of_mem {s : MemorySlots} {off size : Nat}
    (h : (off, size) ∈ s.reserved) :
    (s.release off size).1 = true ∧
    (s.release off size).2.totalReservedSize + size = s.totalReservedSize ∧
    (s.release off size).2.capacity = s.capacity := by
  have hc : s.reserved.contains (off, size) = true := by
    simpa using h
  refine ⟨by simp [MemorySlots.release, hc, h], ?_, by simp [MemorySlots.release, hc, h]⟩
  simp only [MemorySlots.release, hc, if_true, MemorySlots.totalReservedSize]
  exact sum_snd_erase h

/-- A successful reserve comes from a successful first-fit search. -/
theorem reserve_some_findFit {s : MemorySlots} {size align off : Nat} {s' : MemorySlots}
    (h : s.reserve size align = (some off, s')) :
    ∃ avail', findFit size align s.available = some (off, avail') := by
  unfold MemorySlots.reserve at h
  split at h
  · next o avail' hf =>
    simp only [Prod.mk.injEq, Option.some.injEq] at h
    exact ⟨avail', h.1 ▸ hf⟩
  · simp at h

/-- All free runs of a tracker lie within its capacity. -/
theorem runsBounded_bound {s : MemorySlots} (h : s.runsBounded = true) :
    ∀ r ∈ s.available, r.1 + r.2 ≤ s.capacity := by
  intro r hr
  exact of_decide_eq_true (List.all_eq_true.mp h r hr)

/-- Facts about a successful block-level allocation from a block whose
free runs are in bounds. -/
theorem block_alloc_facts {b : MemoryBlock} {size p : Nat} {b' : MemoryBlock}
    (h : b.allocate size = (some p, b')) (hw : b.memorySlots.runsBounded = true) :
    ∃ off, p = b.memory + off ∧ off + size ≤ b.capacity ∧
      b'.memory = b.memory ∧ b'.capacity = b.capacity ∧
      b'.memorySlots.reserved = b.memorySlots.reserved ++ [(off, size)] ∧
      b'.memorySlots.totalReservedSize =
        b.memorySlots.totalReservedSize + size := by
  obtain ⟨off, hp, hres, hmem, _, _⟩ := MemoryBlock.allocate_some_elim h
  obtain ⟨hres2, hcap, _⟩ := MemorySlots.reserve_some_elim hres
  obtain ⟨avail', hff⟩ := reserve_some_findFit hres
  refine ⟨off, hp, ?_, hmem, hcap, hres2, ?_⟩
  · exact findFit_bound hff (runsBounded_bound hw)
  · simp [MemorySlots.totalReservedSize, hres2]

/-- A block whose tracker holds the reservation `(off, size)` with
`off` inside the block accepts the deallocation of `memory + off` and
returns exactly `size` bytes to the tracker. -/
theorem block_dealloc_found {b : MemoryBlock} {off N : Nat}
    (hoff : off < b.capacity) (hmem : (off, N) ∈ b.memorySlots.reserved) :
    (b.deallocate (b.memory + off) N).1 = true ∧
    (b.deallocate (b.memory + off) N).2.memorySlots.totalReservedSize + N =
      b.memorySlots.totalReservedSize ∧
    (b.deallocate (b.memory + off) N).2.memory = b.memory ∧
    (b.deallocate (b.memory + off) N).2.capacity = b.capacity := by
  obtain ⟨hrel1, hrel2, hrel3⟩ := release_of_mem hmem
  have h1 : b.memory ≤ b.memory + off := Nat.le_add_right _ _
  have h2 : b.memory + off - b.memory = off := by omega
  have h3 : b.memory + off - b.memory < b.memorySlots.totalMemorySize := by
    rw [h2]
    exact hoff
  unfold MemoryBlock.deallocate
  rw [if_pos h1, if_pos h3, h2]
  rcases hrl : b.memorySlots.release off N with ⟨ok, s2⟩
  rw [hrl] at hrel1 hrel2 hrel3
  exact ⟨rfl, hrel2, rfl, hrel3⟩

/-- A pointer outside `[memory, memory + capacity)` is rejected and the
block is untouched. -/
theorem block_dealloc_miss {b : MemoryBlock} {p N : Nat}
    (h : p < b.memory ∨ b.memory + b.capacity ≤ p) :
    b.deallocate p N = (false, b) := by
  unfold MemoryBlock.deallocate
  rcases h with h | h
  · rw [if_neg (by omega)]
  · have hc : b.capacity = b.memorySlots.totalMemorySize := rfl
    by_cases h1 : b.memory ≤ p
    · rw [if_pos h1, if_neg (by rw [← hc]; omega)]
    · rw [if_neg h1]

/-! ## Generic list helpers -/

/-- `set` at the junction of an append replaces the head of the tail. -/
theorem set_append_length {α : Type} (A : List α) (x y : α) (B : List α) :
    (A ++ x :: B).set A.length y = A ++ y :: B := by
  induction A with
  | nil => rfl
  | cons a A ih => simp [List.set_cons_succ, ih]

/-- `get?` at the junction of an append reads the head of the tail. -/
theorem get?_append_length {α : Type} (A : List α) (x : α) (B : List α) :
    (A ++ x :: B).get? A.length = some x := by
  induction A with
  | nil => rfl
  | cons a A ih => simpa using ih

/-- A successful `get?` splits the list around the found element. -/
theorem get?_split {α : Type} {l : List α} {i : Nat} {a : α}
    (h : l.get? i = some a) : ∃ A B, l = A ++ a :: B ∧ A.length = i := by
  induction l generalizing i with
  | nil => simp [List.get?] at h
  | cons x rest ih =>
    cases i with
    | zero =>
      simp only [List.get?, Option.some.injEq] at h
      exact ⟨[], rest, by rw [h]; rfl, rfl⟩
    | succ j =>
      simp only [List.get?] at h
      obtain ⟨A, B, hl, hlen⟩ := ih h
      exact ⟨x :: A, B, by simp [hl], by simp [hlen]⟩

/-- `all` survives a `set` with an element satisfying the predicate. -/
theorem all_set {α : Type} {l : List α} {f : α → Bool} {v : α}
    (hl : l.all f = true) (hv : f v = true) :
    ∀ i, (l.set i v).all f = true := by
  intro i
  induction l generalizing i with
  | nil => rfl
  | cons x rest ih =>
    cases i with
    | zero =>
      simp only [List.set_cons_zero, List.all_cons, Bool.and_eq_true] at hl ⊢
      exact ⟨hv, hl.2⟩
    | succ j =>
      simp only [List.set_cons_succ, List.all_cons, Bool.and_eq_true] at hl ⊢
      exact ⟨hl.1, ih hl.2 j⟩

/-- A `flatMap` whose function vanishes on every element is empty. -/
theorem flatMap_nil_of {α β : Type} {L : List α} {f : α → List β}
    (h : ∀ x ∈ L, f x = []) : L.flatMap f = [] := by
  induction L with
  | nil => rfl
  | cons x rest ih =>
    simp only [List.flatMap_cons, h x (by simp), List.nil_append]
    exact ih (fun y hy => h y (by simp [hy]))

/-- `set` past the first part of an append acts on the second part. -/
theorem set_append_right {α : Type} {l₁ : List α} {n : Nat} (l₂ : List α) (v : α)
    (h : l₁.length ≤ n) :
    (l₁ ++ l₂).set n v = l₁ ++ l₂.set (n - l₁.length) v := by
  induction l₁ generalizing n with
  | nil => simp
  | cons a l₁ ih =>
    cases n with
    | zero => simp at h
    | succ m =>
      simp only [List.cons_append, List.set_cons_succ, List.length_cons]
      rw [ih (by simpa using h)]
      have hnn : m + 1 - (l₁.length + 1) = m - l₁.length := by omega
      rw [hnn]

/-- Key-sortedness of the association list as a pairwise relation. -/
theorem sortedKeys_pairwise {l : List (Nat × MemoryBlock)}
    (h : sortedKeys l = true) : l.Pairwise (fun x y => x.1 < y.1) := by
  induction l with
  | nil => exact List.Pairwise.nil
  | cons x rest ih =>
    cases rest with
    | nil => simp
    | cons y rest' =>
      simp only [sortedKeys, Bool.and_eq_true, decide_eq_true_eq] at h
      have hp := ih h.2
      refine List.Pairwise.cons ?_ hp
      intro z hz
      rcases List.mem_cons.mp hz with hz | hz
      · subst hz; exact h.1
      · exact Nat.lt_trans h.1 ((List.pairwise_cons.mp hp).1 z hz)

/-- The pairwise-disjointness checker as a pairwise relation. -/
theorem pairwiseDisjoint_pairwise {l : List (Nat × MemoryBlock)}
    (h : pairwiseDisjoint l = true) :
    l.Pairwise (fun x y => disjB x y = true) := by
  induction l with
  | nil => exact List.Pairwise.nil
  | cons x rest ih =>
    simp only [pairwiseDisjoint, Bool.and_eq_true, List.all_eq_true] at h
    exact List.Pairwise.cons (fun y hy => h.1 y hy) (ih h.2)

/-- Aligning an offset never moves it backwards. -/
theorem alignUp_ge {a : Nat} (o : Nat) (ha : 0 < a) : o ≤ alignUp o a := by
  unfold alignUp
  rw [if_neg (by omega), Nat.mul_comm]
  have hd := Nat.div_add_mod (o + a - 1) a
  have hm : (o + a - 1) % a < a := Nat.mod_lt _ ha
  omega

/-- Inserting a key at or beyond every present key appends at the end. -/
theorem insertSorted_append {k : Nat} {b : MemoryBlock}
    {l : List (Nat × MemoryBlock)} (h : ∀ x ∈ l, ¬ k < x.1) :
    insertSorted k b l = l ++ [(k, b)] := by
  induction l with
  | nil => rfl
  | cons x rest ih =>
    unfold insertSorted
    rw [if_neg (h x (by simp))]
    simp only [List.cons_append, List.cons.injEq, true_and]
    exact ih (fun y hy => h y (by simp [hy]))

/-- When no key exceeds the pointer, `upper_bound` reaches the end. -/
theorem ffg_none {p : Nat} {l : List (Nat × MemoryBlock)}
    (h : ∀ x ∈ l, ¬ p < x.1) : findFirstGreater p l = none := by
  induction l with
  | nil => rfl
  | cons x rest ih =>
    unfold findFirstGreater
    rw [if_neg (h x (by simp)), ih (fun y hy => h y (by simp [hy]))]
    rfl

/-- `upper_bound` lands exactly on the first key greater than the
pointer. -/
theorem ffg_split {p : Nat} {A : List (Nat × MemoryBlock)}
    {c : Nat × MemoryBlock} {B : List (Nat × MemoryBlock)}
    (hA : ∀ x ∈ A, ¬ p < x.1) (hc : p < c.1) :
    findFirstGreater p (A ++ c :: B) = some A.length := by
  induction A with
  | nil =>
    rw [List.nil_append]
    show (if p < c.1 then some 0 else (findFirstGreater p B).map (· + 1)) = some 0
    rw [if_pos hc]
  | cons a A ih =>
    rw [List.cons_append]
    show (if p < a.1 then some 0
          else (findFirstGreater p (A ++ c :: B)).map (· + 1)) = some (a :: A).length
    rw [if_neg (hA a (by simp)), ih (fun y hy => hA y (by simp [hy]))]
    rfl

/-- `upper_bound` found a strictly greater key: the block tried is its
predecessor. -/
theorem upperBoundIdx_succ {p : Nat} {l : List (Nat × MemoryBlock)} {j : Nat}
    (h : findFirstGreater p l = some (j + 1)) : upperBoundIdx p l = j := by
  unfold upperBoundIdx
  rw [h]

/-- `upper_bound` reached the end: the block tried is the last one. -/
theorem upperBoundIdx_none {p : Nat} {l : List (Nat × MemoryBlock)}
    (h : findFirstGreater p l = none) : upperBoundIdx p l = l.length - 1 := by
  unfold upperBoundIdx
  rw [h]

/-! ## Destructors for the group allocation paths -/

/-- Unpack the group invariant into its per-block facts. -/
theorem wfG_unpack {addr : Nat} {g : MemoryBlocks} (h : MemoryBlocks.wfG addr g = true) :
    sortedKeys g.memoryBlocks = true ∧
    ∀ kb ∈ g.memoryBlocks, kb.2.memory = kb.1 ∧
      kb.2.memorySlots.runsBounded = true ∧
      0 < kb.2.memorySlots.capacity ∧ kb.1 + kb.2.capacity ≤ addr := by
  simp only [MemoryBlocks.wfG, Bool.and_eq_true, List.all_eq_true, MemoryBlock.wfB,
    beq_iff_eq, decide_eq_true_eq] at h
  obtain ⟨h1, h2⟩ := h
  refine ⟨h1, fun kb hm => ?_⟩
  obtain ⟨⟨ha, hb, hc⟩, hd⟩ := h2 kb hm
  exact ⟨ha, hb, hc, hd⟩

/-- A successful map lookup splits the association list, and an update
replaces the found entry in place. -/
theorem lookupBlock_split {k : Nat} {b : MemoryBlock} {l : List (Nat × MemoryBlock)}
    (h : lookupBlock k l = some b) :
    ∃ PRE POST, l = PRE ++ (k, b) :: POST ∧
      ∀ b₂, updateBlock k b₂ l = PRE ++ (k, b₂) :: POST := by
  induction l with
  | nil => simp [lookupBlock] at h
  | cons x rest ih =>
    rcases x with ⟨k1, b1⟩
    by_cases hk : k1 = k
    · subst hk
      simp only [lookupBlock, eq_self_iff_true, if_true, Option.some.injEq] at h
      subst h
      refine ⟨[], rest, rfl, fun b₂ => ?_⟩
      simp [updateBlock]
    · simp only [lookupBlock, if_neg hk] at h
      obtain ⟨PRE, POST, hl, hu⟩ := ih h
      refine ⟨(k1, b1) :: PRE, POST, by simp [hl], fun b₂ => ?_⟩
      simp only [updateBlock, if_neg hk, hu b₂]
      rfl

/-- Destruct a successful latest-block allocation. -/
theorem tryLatest_some_elim {g : MemoryBlocks} {N p : Nat} {g₂ : MemoryBlocks}
    (h : g.tryLatest N = some (p, g₂)) :
    ∃ k b b', g.latestMemoryBlock = some k ∧
      lookupBlock k g.memoryBlocks = some b ∧
      b.allocate N = (some p, b') ∧
      g₂ = { g with memoryBlocks := updateBlock k b' g.memoryBlocks } := by
  rcases hl : g.latestMemoryBlock with _ | k
  · simp [MemoryBlocks.tryLatest, hl] at h
  · rcases hb : lookupBlock k g.memoryBlocks with _ | b
    · simp [MemoryBlocks.tryLatest, hl, hb] at h
    · rcases ha : b.allocate N with ⟨po, b'⟩
      cases po with
      | none => simp [MemoryBlocks.tryLatest, hl, hb, ha] at h
      | some p₀ =>
        simp only [MemoryBlocks.tryLatest, hl, hb, ha, Option.some.injEq,
          Prod.mk.injEq] at h
        obtain ⟨hp, hg⟩ := h
        exact ⟨k, b, b', rfl, hb, by rw [ha, hp], hg.symm⟩

/-- Destruct a successful scan over the other blocks: exactly one block
serves the request, the rest of the scanned list is untouched. -/
theorem tryOthers_split {skip : Option Nat} {N : Nat}
    {L L' : List (Nat × MemoryBlock)} {p : Nat}
    (h : tryOthers skip N L = some (p, L')) :
    ∃ A k b b' B, L = A ++ (k, b) :: B ∧ L' = A ++ (k, b') :: B ∧
      b.allocate N = (some p, b') := by
  induction L generalizing L' with
  | nil => simp [tryOthers] at h
  | cons x rest ih =>
    rcases x with ⟨k1, b1⟩
    by_cases hs : some k1 = skip
    · rcases hr : tryOthers skip N rest with _ | pr
      · simp [tryOthers, if_pos hs, hr] at h
      · rcases pr with ⟨p₀, rest'⟩
        simp only [tryOthers, if_pos hs, hr, Option.some.injEq, Prod.mk.injEq] at h
        obtain ⟨hp, hl⟩ := h
        subst hp
        obtain ⟨A, k, b, b', B, h1, h2, h3⟩ := ih hr
        exact ⟨(k1, b1) :: A, k, b, b', B, by simp [h1], by simp [← hl, h2], h3⟩
    · rcases ha : b1.allocate N with ⟨po, b1'⟩
      cases po with
      | some p₀ =>
        simp only [tryOthers, if_neg hs, ha, Option.some.injEq, Prod.mk.injEq] at h
        obtain ⟨hp, hl⟩ := h
        exact ⟨[], k1, b1, b1', rest, rfl, by simp [← hl], by rw [ha, hp]⟩
      | none =>
        rcases hr : tryOthers skip N rest with _ | pr
        · simp [tryOthers, if_neg hs, ha, hr] at h
        · rcases pr with ⟨p₀, rest'⟩
          simp only [tryOthers, if_neg hs, ha, hr, Option.some.injEq,
            Prod.mk.injEq] at h
          obtain ⟨hp, hl⟩ := h
          subst hp
          obtain ⟨A, k, b, b', B, h1, h2, h3⟩ := ih hr
          exact ⟨(k1, b1) :: A, k, b, b', B, by simp [h1], by simp [← hl, h2], h3⟩

/-! ## Group-level deallocation lemmas -/

/-- A group none of whose blocks contains the pointer rejects the
deallocation untouched. -/
theorem group_dealloc_miss {g : MemoryBlocks} {p N : Nat}
    (hm : ∀ kb ∈ g.memoryBlocks, kb.2.memory = kb.1)
    (hmiss : ∀ kb ∈ g.memoryBlocks, p < kb.1 ∨ kb.1 + kb.2.capacity ≤ p) :
    g.deallocate p N = (false, g) := by
  rcases hg : g.memoryBlocks.get? (upperBoundIdx p g.memoryBlocks) with _ | kb
  · simp only [MemoryBlocks.deallocate, hg]
  · rcases kb with ⟨k, b⟩
    have hkmem : (k, b) ∈ g.memoryBlocks := List.get?_mem hg
    have h1 : b.memory = k := hm _ hkmem
    have h2 : p < k ∨ k + b.capacity ≤ p := hmiss _ hkmem
    have hbd : b.deallocate p N = (false, b) := by
      apply block_dealloc_miss
      rw [h1]
      exact h2
    simp only [MemoryBlocks.deallocate, hg, hbd]

/-- The group owning the block that holds `[key+off, key+off+N)` accepts
the deallocation, returning exactly `N` bytes to that block's tracker. -/
theorem group_dealloc_hit {g' : MemoryBlocks} {pre post : List (Nat × MemoryBlock)}
    {key off N : Nat} {b' : MemoryBlock}
    (hmb : g'.memoryBlocks = pre ++ (key, b') :: post)
    (hpre : ∀ x ∈ pre, x.1 ≤ key + off)
    (hpost : ∀ x ∈ post, key + off < x.1)
    (hoff : off < b'.capacity)
    (hres : (off, N) ∈ b'.memorySlots.reserved)
    (hbm : b'.memory = key) :
    (g'.deallocate (key + off) N).1 = true ∧
    (g'.deallocate (key + off) N).2.totalReservedSize + N = g'.totalReservedSize := by
  have hub : upperBoundIdx (key + off) g'.memoryBlocks = pre.length := by
    rw [hmb]
    cases post with
    | nil =>
      have hffg : findFirstGreater (key + off) (pre ++ [(key, b')]) = none := by
        apply ffg_none
        intro x hx
        rcases List.mem_append.mp hx with hx | hx
        · exact Nat.not_lt.mpr (hpre x hx)
        · have hxx : x = (key, b') := by simpa using hx
          subst hxx
          exact Nat.not_lt.mpr (Nat.le_add_right key off)
      rw [upperBoundIdx_none hffg]
      simp
    | cons y post' =>
      have hA : ∀ x ∈ pre ++ [(key, b')], ¬ key + off < x.1 := by
        intro x hx
        rcases List.mem_append.mp hx with hx | hx
        · exact Nat.not_lt.mpr (hpre x hx)
        · have hxx : x = (key, b') := by simpa using hx
          subst hxx
          exact Nat.not_lt.mpr (Nat.le_add_right key off)
      have hffg := @ffg_split (key + off) (pre ++ [(key, b')]) y post' hA
        (hpost y (by simp))
      rw [List.append_assoc, List.singleton_append] at hffg
      have hffg2 : findFirstGreater (key + off) (pre ++ (key, b') :: y :: post') =
          some (pre.length + 1) := by
        rw [hffg]
        simp
      exact upperBoundIdx_succ hffg2
  have hget : g'.memoryBlocks.get? (upperBoundIdx (key + off) g'.memoryBlocks) =
      some (key, b') := by
    rw [hub, hmb]
    exact get?_append_length pre (key, b') post
  have hbd := block_dealloc_found hoff hres
  rw [hbm] at hbd
  rcases hd : b'.deallocate (key + off) N with ⟨ok, b''⟩
  rw [hd] at hbd
  have hok : ok = true := hbd.1
  subst hok
  have htot : b''.memorySlots.totalReservedSize + N =
      b'.memorySlots.totalReservedSize := hbd.2.1
  have hdeq : g'.deallocate (key + off) N =
      (true, { g' with memoryBlocks :=
        g'.memoryBlocks.set (upperBoundIdx (key + off) g'.memoryBlocks) (key, b'') }) := by
    simp only [MemoryBlocks.deallocate, hget, hd]
  rw [hdeq]
  refine ⟨rfl, ?_⟩
  simp only [MemoryBlocks.totalReservedSize]
  rw [hub, hmb, set_append_length]
  simp only [List.map_append, List.sum_append, List.map_cons, List.sum_cons]
  omega

/-! ## The group allocation postcondition -/

/-- Common postcondition of the two in-place paths of
`MemoryBlocks::allocate` (latest-block hit and other-block hit): the
served block's entry is replaced, everything else is untouched. -/
theorem update_path_common {g : MemoryBlocks} {PRE POST : List (Nat × MemoryBlock)}
    {k N p : Nat} {b b' : MemoryBlock}
    (hN : 0 < N)
    (hsplit : g.memoryBlocks = PRE ++ (k, b) :: POST)
    (hs : sortedKeys g.memoryBlocks = true)
    (hrb : b.memorySlots.runsBounded = true)
    (hbm : b.memory = k)
    (hpd : g.memoryBlocks.Pairwise (fun x y => disjB x y = true))
    (halloc : b.allocate N = (some p, b')) :
    ∃ off, p = k + off ∧ off + N ≤ b'.capacity ∧
      (off, N) ∈ b'.memorySlots.reserved ∧ b'.memory = k ∧
      (∀ x ∈ PRE, x.1 ≤ p) ∧ (∀ x ∈ POST, p < x.1) ∧
      ((PRE ++ (k, b') :: POST).map
        (fun kb => kb.2.memorySlots.totalReservedSize)).sum
        = g.totalReservedSize + N ∧
      b'.capacity = b.capacity := by
  obtain ⟨off, hp, hle, hm', hcap, hres, htot⟩ := block_alloc_facts halloc hrb
  rw [hbm] at hp hm'
  rw [hsplit] at hs hpd
  have hsp := sortedKeys_pairwise hs
  rw [List.pairwise_append] at hsp hpd
  obtain ⟨hsp1, hsp2, hspx⟩ := hsp
  obtain ⟨hpd1, hpd2, hpdx⟩ := hpd
  refine ⟨off, hp, ?_, ?_, hm', ?_, ?_, ?_, hcap⟩
  · rw [hcap]
    exact hle
  · rw [hres]
    simp
  · intro x hx
    have hxk : x.1 < k := hspx x hx (k, b) (by simp)
    rw [hp]
    omega
  · intro y hy
    have hky : k < y.1 := (List.pairwise_cons.mp hsp2).1 y hy
    have hdj : k + b.capacity ≤ y.1 ∨ y.1 + y.2.capacity ≤ k := by
      have := (List.pairwise_cons.mp hpd2).1 y hy
      simpa [disjB] using this
    rcases hdj with hdj | hdj
    · rw [hp]
      omega
    · omega
  · simp only [MemoryBlocks.totalReservedSize, hsplit, List.map_append,
      List.sum_append, List.map_cons, List.sum_cons]
    omega

/-- The full postcondition of a successful `MemoryBlocks::allocate` on a
well-formed group: the result decomposes the post-state around one block
that now holds the reservation `[off, off+N)` at base `key`, every other
key lies outside `(p, p]`-range ambiguity for the upper-bound search,
the group's reserved total grows by exactly `N`, and the served block is
either a pre-existing block (same base and capacity) or a freshly
created one based at or beyond the heap cursor. -/
theorem group_alloc_decomp {mt addr N p addr' : Nat} {g g' : MemoryBlocks}
    (hN : 0 < N)
    (hs : sortedKeys g.memoryBlocks = true)
    (hm : ∀ kb ∈ g.memoryBlocks, kb.2.memory = kb.1 ∧
      kb.2.memorySlots.runsBounded = true ∧ kb.1 + kb.2.capacity ≤ addr)
    (hpd : g.memoryBlocks.Pairwise (fun x y => disjB x y = true))
    (h : MemoryBlocks.allocate mt addr g N = (some p, addr', g')) :
    ∃ pre key b' post off,
      g'.memoryBlocks = pre ++ (key, b') :: post ∧
      p = key + off ∧
      off + N ≤ b'.capacity ∧
      (off, N) ∈ b'.memorySlots.reserved ∧
      b'.memory = key ∧
      (∀ x ∈ pre, x.1 ≤ p) ∧
      (∀ x ∈ post, p < x.1) ∧
      g'.totalReservedSize = g.totalReservedSize + N ∧
      ((∃ bOld, (key, bOld) ∈ g.memoryBlocks ∧ bOld.capacity = b'.capacity) ∨
        addr ≤ key) := by
  rcases htl : g.tryLatest N with _ | pl
  · rcases hto : tryOthers g.latestMemoryBlock N g.memoryBlocks.reverse with _ | pr
    · -- total miss: a fresh block is created and serves the request
      have hrsv := mkFresh_reserve N g.alignment (max N g.blockSize) mt
        (Nat.le_max_left _ _)
      have hba : (MemoryBlock.mkNew (newBlockBase addr g.alignment)
          (max N g.blockSize) mt g.alignment).allocate N =
          (some (newBlockBase addr g.alignment),
           MemoryBlock.mk (newBlockBase addr g.alignment) g.alignment
             (max (max g.alignment maxAlignT) 16)
             (MemorySlots.mk (max N g.blockSize) mt
               (if 0 < max N g.blockSize - N then
                  [(N, max N g.blockSize - N)] else [])
               [(0, N)])) := by
        simp only [MemoryBlock.allocate, MemoryBlock.mkNew, hrsv, Nat.add_zero]
      simp only [MemoryBlocks.allocate, htl, hto, hba, Prod.mk.injEq,
        Option.some.injEq] at h
      obtain ⟨hp, haddr, hg⟩ := h
      have hbase : addr ≤ newBlockBase addr g.alignment := by
        apply alignUp_ge
        have h16 : (16 : Nat) ≤ max (max g.alignment maxAlignT) 16 :=
          Nat.le_max_right _ _
        omega
      have hkeys : ∀ x ∈ g.memoryBlocks, ¬ newBlockBase addr g.alignment < x.1 := by
        intro x hx
        have := (hm x hx).2.2
        omega
      have hins := insertSorted_append (b := MemoryBlock.mk
          (newBlockBase addr g.alignment) g.alignment
          (max (max g.alignment maxAlignT) 16)
          (MemorySlots.mk (max N g.blockSize) mt
            (if 0 < max N g.blockSize - N then
               [(N, max N g.blockSize - N)] else [])
            [(0, N)])) hkeys
      refine ⟨g.memoryBlocks, newBlockBase addr g.alignment,
        MemoryBlock.mk (newBlockBase addr g.alignment) g.alignment
          (max (max g.alignment maxAlignT) 16)
          (MemorySlots.mk (max N g.blockSize) mt
            (if 0 < max N g.blockSize - N then
               [(N, max N g.blockSize - N)] else [])
            [(0, N)]),
        [], 0, ?_, ?_, ?_, ?_, ?_, ?_, ?_, ?_, Or.inr hbase⟩
      · rw [← hg]
        simpa using hins
      · omega
      · show 0 + N ≤ max N g.blockSize
        have := Nat.le_max_left N g.blockSize
        omega
      · simp
      · rfl
      · intro x hx
        have := (hm x hx).2.2
        omega
      · simp
      · rw [← hg]
        simp only [MemoryBlocks.totalReservedSize]
        rw [hins]
        simp only [List.map_append, List.sum_append, List.map_cons, List.sum_cons,
          List.map_nil, List.sum_nil, MemorySlots.totalReservedSize]
        simp
    · -- a pre-existing non-latest block serves the request
      rcases pr with ⟨p₀, rev'⟩
      simp only [MemoryBlocks.allocate, htl, hto, Prod.mk.injEq,
        Option.some.injEq] at h
      obtain ⟨hp, haddr, hg⟩ := h
      subst hp
      obtain ⟨A, k, b, b', B, h1, h2, h3⟩ := tryOthers_split hto
      have hsplit : g.memoryBlocks = B.reverse ++ (k, b) :: A.reverse := by
        rw [← List.reverse_reverse g.memoryBlocks, h1]
        simp
      have hsplit' : rev'.reverse = B.reverse ++ (k, b') :: A.reverse := by
        rw [h2]
        simp
      have hkb : (k, b) ∈ g.memoryBlocks := by
        rw [hsplit]
        simp
      obtain ⟨hbm, hrb, _⟩ := hm _ hkb
      obtain ⟨off, hpo, hle, hrv, hbm', hpre, hpost, hsum, hcap⟩ :=
        update_path_common hN hsplit hs hrb hbm hpd h3
      refine ⟨B.reverse, k, b', A.reverse, off, ?_, hpo, hle, hrv, hbm',
        hpre, hpost, ?_, Or.inl ⟨b, hkb, hcap.symm⟩⟩
      · rw [← hg]
        exact hsplit'
      · rw [← hg]
        show ((rev'.reverse).map (fun kb => kb.2.memorySlots.totalReservedSize)).sum
          = g.totalReservedSize + N
        rw [hsplit']
        exact hsum
  · -- the cached latest block serves the request
    rcases pl with ⟨p₀, g₂⟩
    simp only [MemoryBlocks.allocate, htl, Prod.mk.injEq, Option.some.injEq] at h
    obtain ⟨hp, haddr, hg⟩ := h
    subst hp
    obtain ⟨k, b, b', hlat, hlook, halloc, hg₂⟩ := tryLatest_some_elim htl
    obtain ⟨PRE, POST, hsplit, hupd⟩ := lookupBlock_split hlook
    have hkb : (k, b) ∈ g.memoryBlocks := by
      rw [hsplit]
      simp
    obtain ⟨hbm, hrb, _⟩ := hm _ hkb
    obtain ⟨off, hpo, hle, hrv, hbm', hpre, hpost, hsum, hcap⟩ :=
      update_path_common hN hsplit hs hrb hbm hpd halloc
    refine ⟨PRE, k, b', POST, off, ?_, hpo, hle, hrv, hbm',
      hpre, hpost, ?_, Or.inl ⟨b, hkb, hcap.symm⟩⟩
    · rw [← hg, hg₂]
      exact hupd b'
    · rw [← hg, hg₂]
      show ((updateBlock k b' g.memoryBlocks).map
          (fun kb => kb.2.memorySlots.totalReservedSize)).sum
        = g.totalReservedSize + N
      rw [hupd b']
      exact hsum

/-! ## The lazy-creation step as a state transformer -/

/-- When the guard of line 351 does not fire, the state is untouched. -/
theorem ensure_of_not_gt {s : AllocatorCore} {aff : Nat}
    (h : ¬ aff > s.allocatorMemoryBlocks.length) :
    s.ensureMemoryBlocks aff = s := by
  unfold AllocatorCore.ensureMemoryBlocks
  rw [if_neg h]

/-- When the guard fires, the grown group vector is explicit. -/
theorem ensure_fired_eq {s : AllocatorCore} {aff : Nat}
    (h : aff > s.allocatorMemoryBlocks.length) :
    s.ensureMemoryBlocks aff =
      AllocatorCore.mk s.default_alignment s.allocatorType s.memoryTracking
        ((s.allocatorMemoryBlocks ++
          List.replicate (aff + 1 - s.allocatorMemoryBlocks.length)
            (none : Option MemoryBlocks)).set aff
          (some (MemoryBlocks.mkNew ("MemoryBlocks_" ++ toString aff)
            (1024 * 1024) s.default_alignment)))
        s.nextAddress := by
  unfold AllocatorCore.ensureMemoryBlocks
  rw [if_pos h]

/-- After the creation step the guard can never fire again. -/
theorem ensure_length (s : AllocatorCore) (aff : Nat) :
    ¬ aff > (s.ensureMemoryBlocks aff).allocatorMemoryBlocks.length := by
  by_cases hgt : aff > s.allocatorMemoryBlocks.length
  · rw [ensure_fired_eq hgt]
    simp only [List.length_set, List.length_append, List.length_replicate]
    omega
  · rw [ensure_of_not_gt hgt]
    exact hgt

/-- The creation step is idempotent. -/
theorem ensure_idem (s : AllocatorCore) (aff : Nat) :
    (s.ensureMemoryBlocks aff).ensureMemoryBlocks aff = s.ensureMemoryBlocks aff :=
  ensure_of_not_gt (ensure_length s aff)

/-- `Allocator::allocate` behaves identically before and after its own
creation step (lines 350-363 are its own first action). -/
theorem allocate_ensure (s : AllocatorCore) (N aff : Nat) :
    s.allocate N aff = (s.ensureMemoryBlocks aff).allocate N aff := by
  simp only [AllocatorCore.allocate, ensure_idem]

/-- Reading the padded-and-set group vector at the set index. -/
theorem get?_pad_set {α : Type} (l : List α) (pad v : α) {aff : Nat}
    (h : l.length ≤ aff) :
    ((l ++ List.replicate (aff + 1 - l.length) pad).set aff v).get? aff = some v := by
  rw [set_append_right _ _ h]
  have hm1 : aff + 1 - l.length = (aff - l.length) + 1 := by omega
  rw [hm1, List.replicate_succ']
  have hset := set_append_length (List.replicate (aff - l.length) pad) pad v []
  rw [List.length_replicate] at hset
  rw [hset, ← List.append_assoc]
  have hget := get?_append_length (l ++ List.replicate (aff - l.length) pad) v []
  rw [List.length_append, List.length_replicate] at hget
  have he : l.length + (aff - l.length) = aff := by omega
  rw [he] at hget
  exact hget

/-- The creation step never changes the reserved total of the affinity:
a created group is empty, and it is only created when the index had no
group at all. -/
theorem ensure_reserved (s : AllocatorCore) (aff : Nat) :
    (s.ensureMemoryBlocks aff).reservedOfAffinity aff = s.reservedOfAffinity aff := by
  by_cases hgt : aff > s.allocatorMemoryBlocks.length
  · rw [ensure_fired_eq hgt]
    have hle : s.allocatorMemoryBlocks.length ≤ aff := by omega
    have hr : s.allocatorMemoryBlocks.get? aff = none := by
      rw [List.get?_eq_none]
      omega
    simp only [AllocatorCore.reservedOfAffinity, get?_pad_set _ _ _ hle, hr]
    simp [MemoryBlocks.totalReservedSize, MemoryBlocks.mkNew]
  · rw [ensure_of_not_gt hgt]

/-- `allBlocks` only reads the group vector. -/
theorem allBlocks_update (s : AllocatorCore) (L : List (Option MemoryBlocks)) :
    allBlocks { s with allocatorMemoryBlocks := L } =
      L.flatMap (fun og => (og.map MemoryBlocks.memoryBlocks).getD []) := rfl

/-- The creation step preserves well-formedness: the created group is
empty and the vector otherwise only gains null entries. -/
theorem ensure_wf {s : AllocatorCore} {aff : Nat} (h : s.wf = true) :
    (s.ensureMemoryBlocks aff).wf = true := by
  by_cases hgt : aff > s.allocatorMemoryBlocks.length
  · rw [ensure_fired_eq hgt]
    have hle : s.allocatorMemoryBlocks.length ≤ aff := by omega
    simp only [AllocatorCore.wf, Bool.and_eq_true] at h ⊢
    obtain ⟨h1, h2⟩ := h
    refine ⟨?_, ?_⟩
    · apply all_set
      · rw [List.all_append]
        refine (Bool.and_eq_true _ _).mpr ⟨h1, ?_⟩
        rw [List.all_eq_true]
        intro x hx
        rw [List.eq_of_mem_replicate hx]
        rfl
      · simp [MemoryBlocks.wfG, MemoryBlocks.mkNew, sortedKeys]
    · have hnil : ∀ x ∈ (List.replicate (aff + 1 - s.allocatorMemoryBlocks.length)
          (none : Option MemoryBlocks)).set (aff - s.allocatorMemoryBlocks.length)
            (some (MemoryBlocks.mkNew ("MemoryBlocks_" ++ toString aff)
              (1024 * 1024) s.default_alignment)),
          (Option.map MemoryBlocks.memoryBlocks x).getD [] = [] := by
        intro x hx
        rcases List.mem_or_eq_of_mem_set hx with hx | hx
        · rw [List.eq_of_mem_replicate hx]
          rfl
        · subst hx
          rfl
      rw [allBlocks_update, set_append_right _ _ hle, List.flatMap_append,
        flatMap_nil_of hnil, List.append_nil]
      exact h2
  · rw [ensure_of_not_gt hgt]
    exact h

/-! ## The deallocation scan over the group vector -/

/-- The scan tries the groups in order: all earlier groups reject the
pointer unchanged, the owning group claims it. -/
theorem deallocGroups_split {p N : Nat} {L1 L2 : List (Option MemoryBlocks)}
    {g' : MemoryBlocks}
    (hmiss : ∀ g₀, some g₀ ∈ L1 → g₀.deallocate p N = (false, g₀))
    (hhit : (g'.deallocate p N).1 = true) :
    deallocGroups p N (L1 ++ some g' :: L2) =
      (true, L1 ++ some (g'.deallocate p N).2 :: L2) := by
  induction L1 with
  | nil =>
    rcases hd : g'.deallocate p N with ⟨ok, g₂⟩
    rw [hd] at hhit
    have hok : ok = true := hhit
    subst hok
    simp only [List.nil_append, deallocGroups, hd]
  | cons og L1 ih =>
    have ih' := ih (fun g₀ hg₀ => hmiss g₀ (by simp [hg₀]))
    cases og with
    | none =>
      simp only [List.cons_append, deallocGroups, List.append_eq, ih']
    | some g₀ =>
      have hm := hmiss g₀ (by simp)
      simp only [List.cons_append, deallocGroups, List.append_eq, hm, ih']

/-- The round-trip property at the core level: after a successful
`allocate(N, aff)` on a well-formed state whose creation step is
settled, the deallocation scan claims the returned pointer and the
affinity's reserved total returns to its pre-pair value. -/
theorem core_round_trip {c : AllocatorCore} {N aff p : Nat} {c' : AllocatorCore}
    (hid : c.ensureMemoryBlocks aff = c)
    (hwf : c.wf = true) (hN : 0 < N)
    (h : c.allocate N aff = AllocResult.ok p c') :
    (deallocGroups p N c'.allocatorMemoryBlocks).1 = true ∧
    AllocatorCore.reservedOfAffinity { c' with allocatorMemoryBlocks := (deallocGroups p N c'.allocatorMemoryBlocks).2 } aff = c.reservedOfAffinity aff := by
  rcases hg : c.allocatorMemoryBlocks.get? aff with _ | og
  · have hg' : c.allocatorMemoryBlocks[aff]? = none := by
      rw [← List.get?_eq_getElem?]
      exact hg
    simp [AllocatorCore.allocate, hid, hg'] at h
  · cases og with
    | none =>
      have hg' : c.allocatorMemoryBlocks[aff]? = some none := by
        rw [← List.get?_eq_getElem?]
        exact hg
      simp [AllocatorCore.allocate, hid, hg'] at h
    | some g =>
      have hg' : c.allocatorMemoryBlocks[aff]? = some (some g) := by
        rw [← List.get?_eq_getElem?]
        exact hg
      rcases ha : MemoryBlocks.allocate c.memoryTracking c.nextAddress g N
        with ⟨po, addr', g'⟩
      cases po with
      | none => simp [AllocatorCore.allocate, hid, hg', ha] at h
      | some p₀ =>
        simp only [AllocatorCore.allocate, hid, hg, ha, AllocResult.ok.injEq] at h
        obtain ⟨hp, hc'⟩ := h
        subst hp
        have hmemg : (some g) ∈ c.allocatorMemoryBlocks := List.get?_mem hg
        have hwf' := hwf
        simp only [AllocatorCore.wf, Bool.and_eq_true] at hwf'
        obtain ⟨hall, hpd0⟩ := hwf'
        have hwfg : MemoryBlocks.wfG c.nextAddress g = true := by
          have := List.all_eq_true.mp hall _ hmemg
          simpa using this
        obtain ⟨hsorted, hper⟩ := wfG_unpack hwfg
        obtain ⟨A, B, hAB, hAlen⟩ := get?_split hg
        have hABlocks : allBlocks c =
            (A.flatMap (fun og => (og.map MemoryBlocks.memoryBlocks).getD [])) ++
            (g.memoryBlocks ++
              B.flatMap (fun og => (og.map MemoryBlocks.memoryBlocks).getD [])) := by
          unfold allBlocks
          rw [hAB, List.flatMap_append, List.flatMap_cons]
          rfl
        have hpdAll := pairwiseDisjoint_pairwise hpd0
        rw [hABlocks, List.pairwise_append] at hpdAll
        obtain ⟨hpdA, hpdGB, hpdX⟩ := hpdAll
        rw [List.pairwise_append] at hpdGB
        obtain ⟨hpdG, hpdB, hpdGBx⟩ := hpdGB
        have hmG : ∀ kb ∈ g.memoryBlocks, kb.2.memory = kb.1 ∧
            kb.2.memorySlots.runsBounded = true ∧
            kb.1 + kb.2.capacity ≤ c.nextAddress := by
          intro kb hkb
          obtain ⟨h1, h2, _, h4⟩ := hper kb hkb
          exact ⟨h1, h2, h4⟩
        obtain ⟨pre, key, b', post, off, hgmb, hpoff, hoffN, hresv, hbm, hpre,
          hpost, hgtot, hold⟩ := group_alloc_decomp hN hsorted hmG hpdG ha
        subst hpoff
        have hmissA : ∀ g₀, some g₀ ∈ A →
            g₀.deallocate (key + off) N = (false, g₀) := by
          intro g₀ hg₀
          have hg₀mem : (some g₀) ∈ c.allocatorMemoryBlocks := by
            rw [hAB]
            exact List.mem_append.mpr (Or.inl hg₀)
          have hwfg₀ : MemoryBlocks.wfG c.nextAddress g₀ = true := by
            have := List.all_eq_true.mp hall _ hg₀mem
            simpa using this
          obtain ⟨_, hper₀⟩ := wfG_unpack hwfg₀
          apply group_dealloc_miss
          · intro kb hkb
            exact (hper₀ kb hkb).1
          · intro kb hkb
            have hkbA : kb ∈ A.flatMap
                (fun og => (og.map MemoryBlocks.memoryBlocks).getD []) := by
              rw [List.mem_flatMap]
              exact ⟨some g₀, hg₀, by simpa using hkb⟩
            rcases hold with ⟨bOld, hbOldmem, hbOldcap⟩ | haddrkey
            · have hdj := hpdX kb hkbA (key, bOld)
                (List.mem_append.mpr (Or.inl hbOldmem))
              have hdj' : kb.1 + kb.2.capacity ≤ key ∨
                  key + bOld.capacity ≤ kb.1 := by
                simpa [disjB] using hdj
              rcases hdj' with hdj' | hdj'
              · right
                omega
              · left
                have hoc : off < bOld.capacity := by
                  rw [hbOldcap]
                  omega
                omega
            · have hrange := (hper₀ kb hkb).2.2.2
              right
              omega
        have hhit := group_dealloc_hit hgmb hpre hpost (by omega) hresv hbm
        obtain ⟨hhit1, hhit2⟩ := hhit
        have hc'amb : c'.allocatorMemoryBlocks = A ++ some g' :: B := by
          rw [← hc']
          show c.allocatorMemoryBlocks.set aff (some g') = A ++ some g' :: B
          rw [hAB, ← hAlen, set_append_length]
        have hscan := @deallocGroups_split (key + off) N A B g' hmissA hhit1
        rw [hc'amb, hscan]
        have hget2 : (A ++ some (g'.deallocate (key + off) N).2 :: B).get? aff =
            some (some (g'.deallocate (key + off) N).2) := by
          rw [← hAlen]
          exact get?_append_length _ _ _
        refine ⟨rfl, ?_⟩
        simp only [AllocatorCore.reservedOfAffinity, hget2, hg]
        omega

/-- C6: on a well-formed allocator state, a successful
`allocate(N, affinity)` returning pointer `ptr` followed immediately by
`deallocate(ptr, N)` returns `true`, and the reserved total of the
affinity's group after the pair equals its value before the pair. -/
theorem claim6_round_trip_preserves_reserved
    (s s₁ : Allocator) (N affinity ptr : Nat)
    (hwf : s.core.wf = true) (hN : 0 < N)
    (h : s.allocate N affinity = AllocResultA.ok ptr s₁) :
    (s₁.deallocate ptr N).1 = true ∧
    (s₁.deallocate ptr N).2.core.reservedOfAffinity affinity =
      s.core.reservedOfAffinity affinity := by
  cases hc : s.core.allocate N affinity with
  | outOfBounds => simp [Allocator.allocate, hc] at h
  | diverge => simp [Allocator.allocate, hc] at h
  | ok p c' =>
    simp only [Allocator.allocate, hc, AllocResultA.ok.injEq] at h
    obtain ⟨hp, hs₁⟩ := h
    subst hp
    have hcen : (s.core.ensureMemoryBlocks affinity).allocate N affinity =
        AllocResult.ok p c' := by
      rw [← allocate_ensure]
      exact hc
    obtain ⟨hrt1, hrt2⟩ :=
      core_round_trip (ensure_idem s.core affinity) (ensure_wf hwf) hN hcen
    have hs₁core : s₁.core = c' := by rw [← hs₁]
    have hs₁chain : s₁.nestedChain = s.nestedChain := by rw [← hs₁]
    rcases hdg : deallocGroups p N c'.allocatorMemoryBlocks with ⟨ok, G₂⟩
    rw [hdg] at hrt1 hrt2
    have hok : ok = true := hrt1
    subst hok
    have hde : s₁.deallocate p N =
        (true, Allocator.mk { c' with allocatorMemoryBlocks := G₂ } s₁.nestedChain) := by
      simp only [Allocator.deallocate, deallocChain, hs₁core, hdg, List.headD_cons,
        List.tail_cons]
    rw [hde]
    rw [ensure_reserved] at hrt2
    exact ⟨rfl, hrt2⟩

/-- C6 witness: on a freshly constructed allocator, `allocate(16, OBJECTS)`
returns pointer 4096; deallocating it returns `true` and the OBJECTS
group's reserved total returns to its initial value. -/
theorem claim6_witness :
    (freshAllocator 4).core.wf = true ∧ 0 < 16 ∧
    ((claim6ProbeState.deallocate 4096 16).1 = true ∧
     (claim6ProbeState.deallocate 4096 16).2.core.reservedOfAffinity
       ALLOCATOR_AFFINITY_OBJECTS =
       (freshAllocator 4).core.reservedOfAffinity ALLOCATOR_AFFINITY_OBJECTS) :=
  ⟨by decide, by decide,
   claim6_round_trip_preserves_reserved (freshAllocator 4) claim6ProbeState 16
     ALLOCATOR_AFFINITY_OBJECTS 4096 (by decide) (by decide) rfl⟩

end VsgAlloc
